import Mathlib

/-!
Verification of the CleanerMulti repository (src/cleaner_multi.py), a
multi-language project cleaner: file scanning with an mtime cache,
a dependency graph of imports, dead/broken import analyses, snapshot-based
undo, and guarded mutation operations.

The Python source is embedded shallowly: paths and file texts are
strings, the filesystem is an explicit tree value, machine state is
passed explicitly, and each Python function the claims touch becomes a
Lean function of the same name.  All helper string functions are
implemented structurally over character lists so that concrete instances
evaluate by the kernel.
-/

namespace CleanerMulti

/-! ## Character-list string utilities (Python semantics, ASCII scope) -/

/-- Sublist containment: the Python membership test `sub in s` on strings. -/
def subListOf : List Char → List Char → Bool
  | needle, [] => needle.isEmpty
  | needle, c :: rest => needle.isPrefixOf (c :: rest) || subListOf needle rest

/-- Python `sub in s` for strings. -/
def strContains (s sub : String) : Bool :=
  subListOf sub.data s.data

/-- Python `s.startswith(p)`. -/
def strStartsWith (s p : String) : Bool :=
  p.data.isPrefixOf s.data

/-- Python `s.endswith(p)`. -/
def strEndsWith (s p : String) : Bool :=
  p.data.reverse.isPrefixOf s.data.reverse

/-- ASCII lower-casing of one character, as Python `str.lower` acts on ASCII. -/
def asciiLower (c : Char) : Char :=
  if 'A' ≤ c ∧ c ≤ 'Z' then Char.ofNat (c.toNat + 32) else c

/-- Python `s.lower()` (ASCII scope: every string in the source is ASCII). -/
def strLower (s : String) : String :=
  ⟨s.data.map asciiLower⟩

/-- Python `s.replace("\\", "/")`: the pattern is a single character, so the
replacement is a character map. -/
def replaceBackslash (s : String) : String :=
  ⟨s.data.map (fun c => if c = '\\' then '/' else c)⟩

/-- Python whitespace for `str.strip()` (ASCII scope). -/
def isPyWs (c : Char) : Bool :=
  c = ' ' ∨ c = '\t' ∨ c = '\n' ∨ c = '\r' ∨ c = '\x0b' ∨ c = '\x0c'

/-- Python `s.strip()`. -/
def pyStrip (s : String) : String :=
  ⟨((s.data.dropWhile isPyWs).reverse.dropWhile isPyWs).reverse⟩

/-- Python `s.strip(chars)` for a character set. -/
def pyStripChars (s : String) (cs : List Char) : String :=
  ⟨((s.data.dropWhile (cs.contains ·)).reverse.dropWhile (cs.contains ·)).reverse⟩

/-- Python `s.rstrip(chr)` for a single character. -/
def pyRstripChar (s : String) (ch : Char) : String :=
  ⟨(s.data.reverse.dropWhile (· = ch)).reverse⟩

/-- Python `s.replace(" ", "")`. -/
def removeSpaces (s : String) : String :=
  ⟨s.data.filter (· ≠ ' ')⟩

/-- Lexicographic strict comparison of character lists by code point,
the comparison `a < b` of Python strings. -/
def chLt : List Char → List Char → Bool
  | [], [] => false
  | [], _ :: _ => true
  | _ :: _, [] => false
  | a :: as, b :: bs => if a = b then chLt as bs else decide (a < b)

/-- Python `a < b` on strings. -/
def strLt (a b : String) : Bool := chLt a.data b.data

/-- Python `a <= b` on strings (total order: `a <= b` iff `not (b < a)`). -/
def strLe (a b : String) : Bool := !(strLt b a)

/-! ## fnmatch (C10)

`fnmatch.fnmatch(name, pat)` on a POSIX system: `os.path.normcase` is the
identity, and the translated pattern matches the whole name.  The
configured patterns contain no `[` bracket expressions, so only `*` and
`?` are special; every other pattern character matches itself literally. -/

def fnMatchL : List Char → List Char → Bool
  | [], cs => cs.isEmpty
  | p :: ps, cs =>
    if p = '*' then
      fnMatchL ps cs ||
        (match cs with
         | [] => false
         | _ :: cs' => fnMatchL (p :: ps) cs')
    else
      match cs with
      | [] => false
      | c :: cs' => if p = '?' then fnMatchL ps cs' else (p = c && fnMatchL ps cs')
  termination_by ps cs => (cs.length, ps.length)

/-- `fnmatch.fnmatch(name, patt)`. -/
def fnMatch (patt name : String) : Bool :=
  fnMatchL patt.data name.data

/-- A pattern with no glob wildcard characters. -/
def noWild (p : List Char) : Bool :=
  p.all (fun c => c ≠ '*' ∧ c ≠ '?')

theorem fnMatchL_literal :
    ∀ p : List Char, noWild p = true → ∀ s : List Char,
      (fnMatchL p s = true ↔ s = p) := by
  intro p
  induction p with
  | nil =>
    intro _ s
    cases s with
    | nil => simp [fnMatchL]
    | cons c cs => simp [fnMatchL]
  | cons c ps ih =>
    intro hp s
    have hc : (¬ c = '*' ∧ ¬ c = '?') ∧ noWild ps = true := by
      simpa [noWild, List.all_cons] using hp
    rcases hc with ⟨⟨h1, h2⟩, hps⟩
    cases s with
    | nil =>
      simp only [fnMatchL, if_neg h1]
      simp
    | cons x xs =>
      simp only [fnMatchL, if_neg h1, if_neg h2]
      constructor
      · intro h
        have hx : c = x := by
          have := Bool.and_elim_left h
          simpa using this
        have hrest := (ih hps xs).1 (Bool.and_elim_right h)
        simp [hx, hrest]
      · intro h
        injection h with e1 e2
        subst e1
        subst e2
        simp [(ih hps _).2 rfl]

/-! ## Configuration (DEFAULT_CONFIG) -/

/-- First-match association lookup (Python `dict.get`; keys are unique). -/
def lookupStr {α : Type} : List (String × α) → String → Option α
  | [], _ => none
  | (k, v) :: rest, key => if key = k then some v else lookupStr rest key

/-- The flat extension-to-language map built from
`CFG["file_extensions_map"]`, in the insertion order of the source. -/
def EXT_LANG_MAP : List (String × String) :=
  [(".js", "javascript"), (".jsx", "javascript"), (".mjs", "javascript"),
   (".cjs", "javascript"),
   (".ts", "typescript"), (".tsx", "typescript"),
   (".py", "python"),
   (".java", "java"),
   (".cs", "csharp"),
   (".c", "cpp"), (".cpp", "cpp"), (".cc", "cpp"), (".cxx", "cpp"),
   (".h", "cpp"), (".hpp", "cpp"),
   (".go", "go"),
   (".php", "php")]

def EXCLUDED_DIRS : List String :=
  ["node_modules", ".git", "dist", "build", "coverage", ".next"]

def SKIP_PATTERNS : List String := [".d.ts", ".spec.", ".test.*"]

def ALLOW_UNDO_COUNT : Nat := 12

/-! ## os.path pieces -/

/-- The characters after the last slash (the whole string when it has none):
the basename portion that `os.path.splitext` inspects. -/
def afterLastSlash (cs : List Char) : List Char :=
  (cs.reverse.takeWhile (· ≠ '/')).reverse

/-- `os.path.splitext(p)[1]` on POSIX: the suffix of the basename from its
last dot, where leading dots of the basename do not start an extension. -/
def splitextExt (p : String) : String :=
  let base := afterLastSlash p.data
  let lead := (base.takeWhile (· = '.')).length
  let tail := base.drop lead
  let extRev := tail.reverse.takeWhile (· ≠ '.')
  if extRev.length = tail.length then "" else ⟨'.' :: extRev.reverse⟩

/-- `detect_language_for_file`. -/
def detect_language_for_file (path : String) : Option String :=
  lookupStr EXT_LANG_MAP (splitextExt path)

/-! ## The per-filename filter of the scanner (the inner loop of build_file_list) -/

/-- A filename matches some configured skip pattern. -/
def isSkipped (name : String) : Bool :=
  SKIP_PATTERNS.any (fun patt => fnMatch patt name)

/-- `build_file_list` keeps a filename: not skipped, and its extension is a
key of the extension-to-language map. -/
def keepFile (name : String) : Bool :=
  !isSkipped name && (lookupStr EXT_LANG_MAP (splitextExt name)).isSome

theorem fnMatch_literal (p : String) (hp : noWild p.data = true) (name : String) :
    fnMatch p name = true ↔ name = p := by
  unfold fnMatch
  rw [fnMatchL_literal p.data hp name.data]
  constructor
  · intro h
    cases name
    cases p
    simp only [String.data] at h
    rw [h]
  · intro h
    rw [h]

/-- Claim C10: the default skip patterns `.d.ts` and `.spec.` contain no
glob wildcards, so under `fnmatch` they skip only a file literally named
`.d.ts` or `.spec.`; files named `foo.d.ts` or `a.spec.js` are not
skipped and pass the per-file filter of the scanner, while only the `.test.*`
pattern excludes a whole family of names. -/
theorem claim_C10_skip_patterns_literal :
    (∀ name : String, fnMatch ".d.ts" name = true ↔ name = ".d.ts") ∧
    (∀ name : String, fnMatch ".spec." name = true ↔ name = ".spec.") ∧
    isSkipped "foo.d.ts" = false ∧ keepFile "foo.d.ts" = true ∧
    isSkipped "a.spec.js" = false ∧ keepFile "a.spec.js" = true ∧
    fnMatch ".test.*" ".test.js" = true := by
  refine ⟨fun name => fnMatch_literal _ (by decide) name,
          fun name => fnMatch_literal _ (by decide) name, ?_, ?_, ?_, ?_, ?_⟩
  · simp +decide [isSkipped, SKIP_PATTERNS, fnMatch, fnMatchL]
  · simp +decide [keepFile, isSkipped, SKIP_PATTERNS, fnMatch, fnMatchL]
  · simp +decide [isSkipped, SKIP_PATTERNS, fnMatch, fnMatchL]
  · simp +decide [keepFile, isSkipped, SKIP_PATTERNS, fnMatch, fnMatchL]
  · simp +decide [fnMatch, fnMatchL]

/-! ## Descending string sort (Python `sorted(..., reverse=True)`) -/

/-- Strict "greater" on strings as a proposition (for sortedness). -/
def strGtP (a b : String) : Prop := strLt b a = true

theorem chLt_irrefl : ∀ cs : List Char, chLt cs cs = false := by
  intro cs
  induction cs with
  | nil => rfl
  | cons c rest ih => simp [chLt, ih]

theorem chLt_asymm : ∀ a b : List Char, chLt a b = true → chLt b a = false := by
  intro a
  induction a with
  | nil =>
    intro b h
    cases b with
    | nil => simp [chLt] at h
    | cons y bs => simp [chLt]
  | cons x as ih =>
    intro b h
    cases b with
    | nil => simp [chLt] at h
    | cons y bs =>
      by_cases hxy : x = y
      · subst hxy
        simp only [chLt, if_pos rfl] at h
        simp only [chLt, if_pos rfl]
        exact ih bs h
      · simp only [chLt, if_neg hxy] at h
        have hlt : x < y := of_decide_eq_true h
        have hyx : ¬ y = x := fun e => hxy e.symm
        simp only [chLt, if_neg hyx]
        exact decide_eq_false (lt_asymm hlt)

theorem strLt_irrefl (a : String) : strLt a a = false := chLt_irrefl a.data

theorem strLt_asymm {a b : String} (h : strLt a b = true) : strLt b a = false :=
  chLt_asymm a.data b.data h

theorem strLt_ne {a b : String} (h : strLt a b = true) : a ≠ b := by
  intro e
  subst e
  rw [strLt_irrefl] at h
  cases h

/-- One step of the stable descending insertion sort underlying
`sorted(..., reverse=True)` (stability is irrelevant here: the sorted names
are pairwise distinct in every use below). -/
def insertDesc (a : String) : List String → List String
  | [] => [a]
  | b :: l => if strLe b a then a :: b :: l else b :: insertDesc a l

/-- Python `sorted(l, reverse=True)` on strings. -/
def sortDesc (l : List String) : List String := l.foldr insertDesc []

theorem insertDesc_mem {x a : String} : ∀ l : List String,
    (x ∈ insertDesc a l ↔ x = a ∨ x ∈ l) := by
  intro l
  induction l with
  | nil => simp [insertDesc]
  | cons b t ih =>
    by_cases h : strLe b a = true
    · simp [insertDesc, h]
    · simp only [insertDesc, if_neg h, List.mem_cons, ih]
      tauto

theorem sortDesc_mem {x : String} : ∀ l : List String, (x ∈ sortDesc l ↔ x ∈ l) := by
  intro l
  induction l with
  | nil => simp [sortDesc]
  | cons a t ih =>
    show x ∈ insertDesc a (sortDesc t) ↔ _
    rw [insertDesc_mem, ih]
    simp

theorem sortDesc_cons_max {a : String} {l : List String}
    (h : ∀ b ∈ l, strLt b a = true) : sortDesc (a :: l) = a :: sortDesc l := by
  show insertDesc a (sortDesc l) = _
  cases hs : sortDesc l with
  | nil => simp [insertDesc]
  | cons b t =>
    have hb : b ∈ l := by
      rw [← sortDesc_mem l, hs]
      simp
    have hba : strLt b a = true := h b hb
    have : strLe b a = true := by
      unfold strLe
      rw [strLt_asymm hba]
      rfl
    simp [insertDesc, this]

theorem sortDesc_eq_self : ∀ l : List String, l.Pairwise strGtP → sortDesc l = l := by
  intro l
  induction l with
  | nil => intro _; rfl
  | cons a t ih =>
    intro hp
    rw [List.pairwise_cons] at hp
    have h1 : ∀ b ∈ t, strLt b a = true := fun b hb => hp.1 b hb
    rw [sortDesc_cons_max h1, ih hp.2]

theorem filter_mem_take (l : List String) (k : Nat) (hp : l.Pairwise strGtP) :
    l.filter (fun s => decide (s ∈ l.take k)) = l.take k := by
  have hsplit := List.take_append_drop k l
  have hdisj : ∀ x ∈ l.drop k, x ∉ l.take k := by
    intro x hxd hxt
    have hpair : ∀ a ∈ l.take k, ∀ b ∈ l.drop k, strGtP a b := by
      have := hsplit ▸ hp
      rw [List.pairwise_append] at this
      exact this.2.2
    have := hpair x hxt x hxd
    unfold strGtP at this
    rw [strLt_irrefl] at this
    cases this
  have h1 : (l.take k).filter (fun s => decide (s ∈ l.take k)) = l.take k := by
    rw [List.filter_eq_self]
    intro a ha
    simpa using ha
  have h2 : (l.drop k).filter (fun s => decide (s ∈ l.take k)) = [] := by
    rw [List.filter_eq_nil_iff]
    intro a ha
    simpa using hdisj a ha
  have hstep : l.filter (fun s => decide (s ∈ l.take k)) =
      (l.take k ++ l.drop k).filter (fun s => decide (s ∈ l.take k)) := by
    rw [hsplit]
  rw [hstep, List.filter_append, h1, h2, List.append_nil]

theorem map_fst_filter_name {α : Type} (p : String → Bool) :
    ∀ store : List (String × α),
      (store.filter (fun e => p e.1)).map Prod.fst =
        (store.map Prod.fst).filter p := by
  intro store
  induction store with
  | nil => rfl
  | cons e rest ih =>
    by_cases h : p e.1 = true
    · simp [List.filter_cons, h, ih]
    · simp only [Bool.not_eq_true] at h
      simp [List.filter_cons, h, ih]

/-! ## Snapshot store (backup / snapshot / undo)

The project root is a tree of named entries; the backup directory maps a
snapshot directory name to the copied tree.  `shutil.copytree` is the
identity on the tree value, and `.snapshot_meta.json` is written inside
the copy.  The JSON metadata bytes are abstracted as an opaque file
content derived from the label and timestamp. -/

inductive PNode where
  | file (content : String)
  | dir (entries : List (String × PNode))

/-- Top-level entries of a directory (`os.listdir` plus stat). -/
abbrev ProjDir := List (String × PNode)

/-- The backup store: snapshot directory name paired with the copied tree. -/
abbrev SnapStore := List (String × ProjDir)

def SNAPSHOT_META : String := ".snapshot_meta.json"

def SAFE_MODE : Bool := true

/-- First entry with the given name. -/
def lookupEntry : ProjDir → String → Option PNode
  | [], _ => none
  | (n, node) :: rest, name => if name = n then some node else lookupEntry rest name

/-- Content of the file at a path (a list of name segments) under a
entries of a directory. -/
def lookupPath (es : ProjDir) : List String → Option String
  | [] => none
  | [n] =>
    match lookupEntry es n with
    | some (.file c) => some c
    | _ => none
  | n :: rest =>
    match lookupEntry es n with
    | some (.dir sub) => lookupPath sub rest
    | _ => none

/-- Deleting the file at a path (`os.remove`). -/
def removePath (es : ProjDir) : List String → ProjDir
  | [] => es
  | [n] => es.filter (fun e => decide (e.1 ≠ n))
  | n :: rest =>
    es.map (fun e =>
      if e.1 = n then
        (e.1, match e.2 with
              | .dir sub => .dir (removePath sub rest)
              | other => other)
      else e)

/-- `list_snapshots`: backup-directory entries sorted newest-first by name
(every entry of the store is a directory). -/
def list_snapshots (store : SnapStore) : List String :=
  sortDesc (store.map Prod.fst)

/-- `trim_snapshots`: delete every snapshot beyond `ALLOW_UNDO_COUNT`,
keeping the lexicographically greatest names. -/
def trim_snapshots (store : SnapStore) : SnapStore :=
  let snaps := list_snapshots store
  if snaps.length ≤ ALLOW_UNDO_COUNT then store
  else store.filter (fun e => decide (e.1 ∈ snaps.take ALLOW_UNDO_COUNT))

/-- The metadata file written into a fresh snapshot directory
(`json.dump` of the label and timestamp, bytes abstracted). -/
def snapshotMeta (label ts : String) : PNode :=
  .file (label ++ "@" ++ ts)

/-- `create_snapshot`: copy the project root into
`BACKUP_DIR/<ts><label with spaces removed>`, write the metadata file,
then trim.  `shutil.copytree` raises when the destination already exists;
the handler logs and returns an empty path, skipping the trim — the
Boolean records success. -/
def create_snapshot (ts label : String) (root : ProjDir) (store : SnapStore) :
    SnapStore × Bool :=
  let nm := removeSpaces (ts ++ label)
  if (store.map Prod.fst).contains nm then (store, false)
  else (trim_snapshots ((nm, root ++ [(SNAPSHOT_META, snapshotMeta label ts)]) :: store), true)

/-- `undo_last`: delete every top-level entry of the project root, then copy
back every entry of the newest snapshot except its metadata file. -/
def undo_last (root : ProjDir) (store : SnapStore) : ProjDir × Bool :=
  match list_snapshots store with
  | [] => (root, false)
  | last :: _ =>
    match lookupStr store last with
    | some tree => (tree.filter (fun e => decide (e.1 ≠ SNAPSHOT_META)), true)
    | none => (root, false)

/-- State touched by a mutating operation: project-root entries and the
backup store. -/
structure MutationState where
  root : ProjDir
  store : SnapStore

/-- `remove_folder(target_folder)`: preview the files of the folder, then (unless
dry-run or unconfirmed) snapshot and `shutil.rmtree` the folder.  The
source discards the result of `create_snapshot`, so the deletion runs even
when the snapshot failed.  The folder argument is modelled as one path
segment under the project root. -/
def remove_folder (ts : String) (st : MutationState) (target_folder : String)
    (dry_run assume_yes confirmed : Bool) : MutationState :=
  match lookupEntry st.root target_folder with
  | some (.dir _) =>
    if dry_run then st
    else if SAFE_MODE && !assume_yes && !confirmed then st
    else
      let store' := (create_snapshot ts ("remove_folder_" ++ target_folder)
        st.root st.store).1
      { root := st.root.filter (fun e => decide (e.1 ≠ target_folder)),
        store := store' }
  | _ => st

/-! ## C2: snapshot failure does not stop the destructive step -/

/-- A state in which `create_snapshot` must fail: the backup store already
holds a directory with the very name the new snapshot would get. -/
def c2root : ProjDir :=
  [("legacy", .dir [("a.js", .file "content")]), ("keep.js", .file "k")]

def c2store : SnapStore := [("20250101_120000remove_folder_legacy", [])]

/-- Claim C2: the spec requires a mutating operation to abort before any
destructive step when snapshot creation fails.  The code ignores
the result of `create_snapshot`: here the snapshot fails (name collision in the
backup store), yet `remove_folder` still deletes the folder.  The same
unchecked call pattern appears in `comment_imports`, `remove_imports`,
`detect_and_handle_dead` and `move_and_fix`. -/
theorem claim_C2_snapshot_failure_not_aborting :
    (create_snapshot "20250101_120000" "remove_folder_legacy" c2root c2store).2 = false ∧
    lookupEntry (remove_folder "20250101_120000" ⟨c2root, c2store⟩ "legacy"
      false true true).root "legacy" = none :=
  ⟨rfl, rfl⟩

/-! ## C3: snapshot / restore round trip -/

theorem listContains_iff {l : List String} {a : String} :
    l.contains a = true ↔ a ∈ l := by
  induction l with
  | nil => simp
  | cons b t ih =>
    simp only [List.contains_cons, Bool.or_eq_true, beq_iff_eq, ih, List.mem_cons]

theorem create_snapshot_eq {ts label : String} {root : ProjDir} {store : SnapStore}
    (hfresh : (store.map Prod.fst).contains (removeSpaces (ts ++ label)) = false) :
    create_snapshot ts label root store =
      (trim_snapshots ((removeSpaces (ts ++ label),
        root ++ [(SNAPSHOT_META, snapshotMeta label ts)]) :: store), true) := by
  unfold create_snapshot
  simp only [hfresh, Bool.false_eq_true, if_false]

theorem create_snapshot_success {ts label : String} {root : ProjDir} {store : SnapStore}
    (hgt : ∀ n ∈ store.map Prod.fst, strLt n (removeSpaces (ts ++ label)) = true) :
    (create_snapshot ts label root store).2 = true ∧
    ∃ rest : SnapStore,
      (create_snapshot ts label root store).1 =
        (removeSpaces (ts ++ label),
          root ++ [(SNAPSHOT_META, snapshotMeta label ts)]) :: rest ∧
      ∀ n ∈ rest.map Prod.fst, strLt n (removeSpaces (ts ++ label)) = true := by
  have hfresh : (store.map Prod.fst).contains (removeSpaces (ts ++ label)) = false := by
    cases hcon : (store.map Prod.fst).contains (removeSpaces (ts ++ label)) with
    | false => rfl
    | true =>
      have hmem := listContains_iff.1 hcon
      have := hgt _ hmem
      rw [strLt_irrefl] at this
      cases this
  rw [create_snapshot_eq hfresh]
  refine ⟨rfl, ?_⟩
  have hsnaps : list_snapshots ((removeSpaces (ts ++ label),
      root ++ [(SNAPSHOT_META, snapshotMeta label ts)]) :: store) =
      removeSpaces (ts ++ label) :: sortDesc (store.map Prod.fst) := by
    unfold list_snapshots
    show sortDesc (removeSpaces (ts ++ label) :: store.map Prod.fst) = _
    exact sortDesc_cons_max hgt
  unfold trim_snapshots
  rw [hsnaps]
  by_cases hlen : (removeSpaces (ts ++ label) ::
      sortDesc (store.map Prod.fst)).length ≤ ALLOW_UNDO_COUNT
  · rw [if_pos hlen]
    exact ⟨store, rfl, hgt⟩
  · rw [if_neg hlen]
    have htake : (removeSpaces (ts ++ label) ::
        sortDesc (store.map Prod.fst)).take ALLOW_UNDO_COUNT =
        removeSpaces (ts ++ label) :: (sortDesc (store.map Prod.fst)).take 11 := rfl
    rw [htake]
    rw [List.filter_cons_of_pos (by simp)]
    refine ⟨_, rfl, ?_⟩
    intro n hn
    obtain ⟨e, he, hfst⟩ := List.mem_map.1 hn
    subst hfst
    exact hgt e.1 (List.mem_map_of_mem _ (List.mem_of_mem_filter he))

theorem undo_last_top {nm : String} {t : ProjDir} {rest : SnapStore} {cur : ProjDir}
    (hgt : ∀ n ∈ rest.map Prod.fst, strLt n nm = true) :
    undo_last cur ((nm, t) :: rest) =
      (t.filter (fun e => decide (e.1 ≠ SNAPSHOT_META)), true) := by
  have hsnaps : list_snapshots ((nm, t) :: rest) =
      nm :: sortDesc (rest.map Prod.fst) := by
    unfold list_snapshots
    show sortDesc (nm :: rest.map Prod.fst) = _
    exact sortDesc_cons_max hgt
  have hlook : lookupStr ((nm, t) :: rest) nm = some t := by
    unfold lookupStr
    rw [if_pos rfl]
  unfold undo_last
  rw [hsnaps]
  simp [hlook]

/-- Claim C3: create a snapshot, delete a tracked file, run `undo_last`;
the file is back with its snapshot-time content.  Hypotheses: the new
directory name of the new snapshot is lexicographically greater than every existing
one (timestamps increase), and no top-level project entry carries the
name of the metadata file (such an entry would collide with the
metadata and be skipped by the restore). -/
theorem claim_C3_snapshot_restore_roundtrip
    (ts label content : String) (root : ProjDir) (store : SnapStore)
    (f : List String)
    (hmeta : ∀ e ∈ root, e.1 ≠ SNAPSHOT_META)
    (hf : lookupPath root f = some content)
    (hgt : ∀ n ∈ store.map Prod.fst, strLt n (removeSpaces (ts ++ label)) = true) :
    (create_snapshot ts label root store).2 = true ∧
    (undo_last (removePath root f) (create_snapshot ts label root store).1).1 = root ∧
    lookupPath
      (undo_last (removePath root f) (create_snapshot ts label root store).1).1 f =
      some content := by
  obtain ⟨hok, rest, hstore, hrest⟩ := create_snapshot_success hgt
  have hundo := @undo_last_top (removeSpaces (ts ++ label))
    (root ++ [(SNAPSHOT_META, snapshotMeta label ts)]) rest (removePath root f) hrest
  have hclean : (root ++ [(SNAPSHOT_META, snapshotMeta label ts)]).filter
      (fun e => decide (e.1 ≠ SNAPSHOT_META)) = root := by
    rw [List.filter_append]
    have h1 : root.filter (fun e => decide (e.1 ≠ SNAPSHOT_META)) = root := by
      rw [List.filter_eq_self]
      intro e he
      simpa using hmeta e he
    have h2 : ([(SNAPSHOT_META, snapshotMeta label ts)] : ProjDir).filter
        (fun e => decide (e.1 ≠ SNAPSHOT_META)) = [] := by
      simp
    rw [h1, h2, List.append_nil]
  rw [hstore, hundo, hclean]
  exact ⟨hok, rfl, hf⟩

/-- Concrete instance of the C3 round trip. -/
theorem claim_C3_witness :
    (create_snapshot "20250102_090000" "label" [("a.js", PNode.file "hello")]
      [("20250101_000000x", [])]).2 = true ∧
    (undo_last (removePath [("a.js", PNode.file "hello")] ["a.js"])
      (create_snapshot "20250102_090000" "label" [("a.js", PNode.file "hello")]
        [("20250101_000000x", [])]).1).1 = [("a.js", PNode.file "hello")] ∧
    lookupPath
      (undo_last (removePath [("a.js", PNode.file "hello")] ["a.js"])
        (create_snapshot "20250102_090000" "label" [("a.js", PNode.file "hello")]
          [("20250101_000000x", [])]).1).1 ["a.js"] = some "hello" :=
  claim_C3_snapshot_restore_roundtrip "20250102_090000" "label" "hello"
    [("a.js", PNode.file "hello")] [("20250101_000000x", [])] ["a.js"]
    (by decide) (by rfl) (by decide)

/-! ## C4: retention bound of repeated snapshot creation -/

/-- Run a sequence of `create_snapshot` calls (timestamp, label) against a
fixed project root. -/
def run_creates (root : ProjDir) (store : SnapStore) :
    List (String × String) → SnapStore
  | [] => store
  | p :: ps => run_creates root (create_snapshot p.1 p.2 root store).1 ps

/-- The snapshot directory names a sequence of calls produces. -/
def snapNames (ps : List (String × String)) : List String :=
  ps.map (fun p => removeSpaces (p.1 ++ p.2))

theorem map_fst_filter_mem (X : List String) :
    ∀ store : SnapStore,
      (store.filter (fun e => decide (e.1 ∈ X))).map Prod.fst =
        (store.map Prod.fst).filter (fun s => decide (s ∈ X)) := by
  intro store
  induction store with
  | nil => rfl
  | cons e rest ih =>
    by_cases h : e.1 ∈ X
    · simp only [List.filter_cons, List.map_cons]
      rw [if_pos (by simpa using h), if_pos (by simpa using h)]
      simp [ih]
    · simp only [List.filter_cons, List.map_cons]
      rw [if_neg (by simpa using h), if_neg (by simpa using h)]
      exact ih

theorem trim_snapshots_names (store : SnapStore)
    (hp : (store.map Prod.fst).Pairwise strGtP) :
    (trim_snapshots store).map Prod.fst =
      (store.map Prod.fst).take ALLOW_UNDO_COUNT := by
  have hsort : list_snapshots store = store.map Prod.fst :=
    sortDesc_eq_self _ hp
  unfold trim_snapshots
  rw [hsort]
  by_cases hlen : (store.map Prod.fst).length ≤ ALLOW_UNDO_COUNT
  · rw [if_pos hlen, List.take_of_length_le hlen]
  · rw [if_neg hlen, map_fst_filter_mem, filter_mem_take _ _ hp]

theorem run_creates_names (root : ProjDir) :
    ∀ (ps : List (String × String)) (store : SnapStore) (done : List String),
      store.map Prod.fst = done.take ALLOW_UNDO_COUNT →
      ((snapNames ps).reverse ++ done).Pairwise strGtP →
      (run_creates root store ps).map Prod.fst =
        ((snapNames ps).reverse ++ done).take ALLOW_UNDO_COUNT := by
  intro ps
  induction ps with
  | nil =>
    intro store done hnames _
    simpa [run_creates, snapNames] using hnames
  | cons p ps ih =>
    intro store done hnames hpair
    have hrevcons : (snapNames (p :: ps)).reverse =
        (snapNames ps).reverse ++ [removeSpaces (p.1 ++ p.2)] := by
      simp [snapNames]
    set nm := removeSpaces (p.1 ++ p.2) with hnmdef
    have hassoc : (snapNames (p :: ps)).reverse ++ done =
        (snapNames ps).reverse ++ (nm :: done) := by
      rw [hrevcons, List.append_assoc]
      rfl
    have hpair' : ((snapNames ps).reverse ++ (nm :: done)).Pairwise strGtP := by
      rw [← hassoc]; exact hpair
    have hsubpair : (nm :: done).Pairwise strGtP := by
      have hsub : List.Sublist (nm :: done) ((snapNames ps).reverse ++ (nm :: done)) :=
        List.sublist_append_right _ _
      exact hpair'.sublist hsub
    rw [List.pairwise_cons] at hsubpair
    have hgtdone : ∀ b ∈ done, strLt b nm = true := fun b hb => hsubpair.1 b hb
    have hgtstore : ∀ n ∈ store.map Prod.fst, strLt n nm = true := by
      intro n hn
      rw [hnames] at hn
      exact hgtdone n (List.take_subset _ _ hn)
    have hfresh : (store.map Prod.fst).contains nm = false := by
      cases hcon : (store.map Prod.fst).contains nm with
      | false => rfl
      | true =>
        have := hgtstore nm (listContains_iff.1 hcon)
        rw [strLt_irrefl] at this
        cases this
    have hnext : ((create_snapshot p.1 p.2 root store).1).map Prod.fst =
        (nm :: done).take ALLOW_UNDO_COUNT := by
      rw [create_snapshot_eq hfresh]
      have hinnames : ((nm, root ++ [(SNAPSHOT_META, snapshotMeta p.2 p.1)]) ::
          store).map Prod.fst = nm :: done.take ALLOW_UNDO_COUNT := by
        simp [hnames]
      have hinpair : ((nm, root ++ [(SNAPSHOT_META, snapshotMeta p.2 p.1)]) ::
          store).map Prod.fst |>.Pairwise strGtP := by
        rw [hinnames, List.pairwise_cons]
        constructor
        · intro b hb
          exact hgtdone b (List.take_subset _ _ hb)
        · exact hsubpair.2.sublist (List.take_sublist _ _)
      rw [trim_snapshots_names _ hinpair, hinnames]
      show (nm :: done.take ALLOW_UNDO_COUNT).take ALLOW_UNDO_COUNT = _
      have h12 : (nm :: done.take ALLOW_UNDO_COUNT).take ALLOW_UNDO_COUNT =
          nm :: (done.take ALLOW_UNDO_COUNT).take 11 := rfl
      rw [h12, List.take_take]
      rfl
    have := ih (create_snapshot p.1 p.2 root store).1 (nm :: done) hnext hpair'
    show (run_creates root (create_snapshot p.1 p.2 root store).1 ps).map Prod.fst = _
    rw [this, hassoc]

/-- Claim C4: starting from an empty backup store, a sequence of
`create_snapshot` calls with strictly increasing directory names leaves
`list_snapshots` equal to the most recently created names, newest first,
truncated to the retention count; the bound also holds after every prefix
of the sequence (pruning is eager). -/
theorem claim_C4_snapshot_retention (root : ProjDir) (ps : List (String × String))
    (hinc : (snapNames ps).Pairwise (fun a b => strLt a b = true)) :
    list_snapshots (run_creates root [] ps) =
      (snapNames ps).reverse.take ALLOW_UNDO_COUNT ∧
    (list_snapshots (run_creates root [] ps)).length ≤ ALLOW_UNDO_COUNT ∧
    ∀ n : Nat,
      (list_snapshots (run_creates root [] (ps.take n))).length ≤ ALLOW_UNDO_COUNT := by
  have main : ∀ qs : List (String × String),
      (snapNames qs).Pairwise (fun a b => strLt a b = true) →
      list_snapshots (run_creates root [] qs) =
        (snapNames qs).reverse.take ALLOW_UNDO_COUNT := by
    intro qs hq
    have hrev : (snapNames qs).reverse.Pairwise strGtP := by
      rw [List.pairwise_reverse]
      exact hq
    have hnames := run_creates_names root qs [] [] (by rfl)
      (by simpa using hrev)
    rw [List.append_nil] at hnames
    unfold list_snapshots
    rw [hnames]
    exact sortDesc_eq_self _ (hrev.sublist (List.take_sublist _ _))
  have hmain := main ps hinc
  refine ⟨hmain, ?_, ?_⟩
  · rw [hmain, List.length_take]
    exact Nat.min_le_left _ _
  · intro n
    have hq : (snapNames (ps.take n)).Pairwise (fun a b => strLt a b = true) := by
      have hsubl : List.Sublist (snapNames (ps.take n)) (snapNames ps) := by
        unfold snapNames
        exact (List.take_sublist _ _).map _
      exact hinc.sublist hsubl
    rw [main (ps.take n) hq, List.length_take]
    exact Nat.min_le_left _ _

/-- Thirteen snapshot creations (one more than the retention count) with
increasing names. -/
def c4pairs : List (String × String) :=
  [("t01", "a"), ("t02", "a"), ("t03", "a"), ("t04", "a"), ("t05", "a"),
   ("t06", "a"), ("t07", "a"), ("t08", "a"), ("t09", "a"), ("t10", "a"),
   ("t11", "a"), ("t12", "a"), ("t13", "a")]

/-- Concrete instance of the C4 retention property. -/
theorem claim_C4_witness :
    (snapNames c4pairs).Pairwise (fun a b => strLt a b = true) ∧
    list_snapshots (run_creates [] [] c4pairs) =
      (snapNames c4pairs).reverse.take ALLOW_UNDO_COUNT :=
  ⟨by decide, (claim_C4_snapshot_retention [] c4pairs (by decide)).1⟩

/-! ## os.path: split, join, dirname, normpath (POSIX rules) -/

/-- Python `p.split("/")` on the character level. -/
def splitSlash : List Char → List (List Char)
  | [] => [[]]
  | c :: rest =>
    let r := splitSlash rest
    if c = '/' then [] :: r
    else
      match r with
      | [] => [[c]]
      | h :: t => (c :: h) :: t

/-- `"/".join(comps)`. -/
def joinComps : List String → String
  | [] => ""
  | [c] => c
  | c :: rest => c ++ "/" ++ joinComps rest

/-- One step of the component loop of `os.path.normpath`: empty and `.`
components are dropped; `..` is kept at the start of a relative path or
after another kept `..`, and otherwise pops the previous component. -/
def npStep (slashes : Nat) (acc : List String) (comp : String) : List String :=
  if comp = "" ∨ comp = "." then acc
  else if comp ≠ ".." ∨ (slashes = 0 ∧ acc = []) ∨ (acc ≠ [] ∧ acc.getLast? = some "..") then
    acc ++ [comp]
  else if acc ≠ [] then acc.dropLast
  else acc

/-- The leading-slash count and rebuilt component body of
`os.path.normpath`, before the final empty-result guard. -/
def normBody (p : String) : String :=
  let slashes : Nat :=
    if strStartsWith p "/" then
      if strStartsWith p "//" ∧ ¬ strStartsWith p "///" then 2 else 1
    else 0
  String.mk (List.replicate slashes '/') ++
    joinComps (((splitSlash p.data).map (fun cs => (⟨cs⟩ : String))).foldl
      (npStep slashes) [])

/-- `os.path.normpath` (POSIX): collapse separators and `.`, resolve `..`
lexically, preserve one or two leading slashes. -/
def normpath (p : String) : String :=
  if p = "" then "." else if normBody p = "" then "." else normBody p

/-- Two-argument `os.path.join` (POSIX). -/
def pathJoin (a b : String) : String :=
  if strStartsWith b "/" then b
  else if a = "" ∨ strEndsWith a "/" then a ++ b
  else a ++ "/" ++ b

/-- `os.path.dirname` (POSIX). -/
def dirname (p : String) : String :=
  let cs := p.data
  let rev := cs.reverse
  if (rev.takeWhile (· ≠ '/')).length = cs.length then ""
  else
    let head := (rev.dropWhile (· ≠ '/')).reverse
    if head.all (· = '/') then ⟨head⟩
    else ⟨(head.reverse.dropWhile (· = '/')).reverse⟩

/-- `os.path.basename` (POSIX). -/
def basename (p : String) : String := ⟨afterLastSlash p.data⟩

/-! ## LanguageHandler and resolve_import -/

/-- The part of `LanguageHandler` that `resolve_import` reads: the
language name and its extension list.  The import regexes are modelled
separately where a claim needs them. -/
structure Handler where
  name : String
  extensions : List String

def LANG_HANDLERS : List (String × Handler) :=
  [("javascript", ⟨"javascript", [".js", ".jsx", ".mjs", ".cjs"]⟩),
   ("typescript", ⟨"typescript", [".ts", ".tsx"]⟩),
   ("python", ⟨"python", [".py"]⟩),
   ("java", ⟨"java", [".java"]⟩),
   ("csharp", ⟨"csharp", [".cs"]⟩),
   ("cpp", ⟨"cpp", [".c", ".cpp", ".cc", ".cxx", ".h", ".hpp"]⟩),
   ("go", ⟨"go", [".go"]⟩),
   ("php", ⟨"php", [".php"]⟩)]

def getHandler (lang : String) : Option Handler :=
  lookupStr LANG_HANDLERS lang

/-- Try candidate paths in order; a candidate hits when its normpath is a
member of the known-file set, and the normalized path is returned. -/
def probeList (all : List String) : List String → Option String
  | [] => none
  | c :: rest =>
    if all.contains (normpath c) then some (normpath c) else probeList all rest

/-- The candidate list of the relative and root-relative strategies: for
each extension, the candidate with the extension appended (unless already
a suffix), then `index.<ext>` inside the candidate as a directory. -/
def extCandidates (h : Handler) (candidate : String) : List String :=
  (h.extensions.map (fun ext =>
    [if strEndsWith candidate ext then candidate else candidate ++ ext,
     pathJoin candidate ("index" ++ ext)])).flatten

/-- Python `imp.replace(".", os.sep)`. -/
def dotsToSlashes (s : String) : String :=
  ⟨s.data.map (fun c => if c = '.' then '/' else c)⟩

/-- Strategy 1: specifier starting with `.` or `/`, resolved against the
directory of the importing file; ends with the bare-candidate fallback. -/
def resolveRelative (h : Handler) (base_file imp : String) (all : List String) :
    Option String :=
  match probeList all (extCandidates h (normpath (pathJoin (dirname base_file) imp))) with
  | some r => some r
  | none =>
    if all.contains (normpath (normpath (pathJoin (dirname base_file) imp))) then
      some (normpath (normpath (pathJoin (dirname base_file) imp)))
    else none

/-- Strategy 2: specifier containing `/`, resolved against the project
root (no bare fallback; on a miss control falls through to strategy 3). -/
def resolvePathLike (projectRoot : String) (h : Handler) (imp : String)
    (all : List String) : Option String :=
  if strContains imp "/" then
    probeList all (extCandidates h (normpath (pathJoin projectRoot imp)))
  else none

/-- Strategy 3: dotted namespace specifier for java / csharp, dots turned
into separators under the project root, each extension appended. -/
def resolveNamespace (projectRoot : String) (h : Handler) (imp : String)
    (all : List String) : Option String :=
  if strContains imp "." && (h.name = "java" || h.name = "csharp") then
    probeList all (h.extensions.map (fun ext =>
      normpath (pathJoin projectRoot (dotsToSlashes imp)) ++ ext))
  else none

/-- `LanguageHandler.resolve_import`. -/
def resolve_import (projectRoot : String) (h : Handler) (base_file imp0 : String)
    (all : List String) : Option String :=
  let imp1 := pyStrip imp0
  if imp1 = "" then none
  else
    let imp := pyStripChars imp1 ['"', '\'']
    if strStartsWith imp "." || strStartsWith imp "/" then
      resolveRelative h base_file imp all
    else
      match resolvePathLike projectRoot h imp all with
      | some r => some r
      | none => resolveNamespace projectRoot h imp all

/-! ## analyze_project: the dependency graph (C1)

The graph dictionaries are association lists keyed by file path.  Reading
file text and extracting raw specifiers (regexes plus the Go block case)
is abstracted as a function from file to specifier list — the graph
invariant holds for every extraction result; resolution is the concrete
`resolve_import` above. -/

/-- `d[k].add(v)` on a dict of sets (no-op on a missing key; the source
would raise `KeyError` there, which `analyze_project` never does because
resolved targets are always keys). -/
def gAdd : List (String × List String) → String → String → List (String × List String)
  | [], _, _ => []
  | e :: rest, k, v =>
    (if e.1 = k then (e.1, if e.2.contains v then e.2 else e.2 ++ [v]) else e) ::
      gAdd rest k v

/-- The value set at a key (empty for a missing key). -/
def gGet (m : List (String × List String)) (k : String) : List String :=
  (lookupStr m k).getD []

structure Graph where
  referenced_by : List (String × List String)
  imports_of : List (String × List String)

/-- Record one resolved edge in both directions. -/
def addEdge (g : Graph) (f target : String) : Graph :=
  { referenced_by := gAdd g.referenced_by target f,
    imports_of := gAdd g.imports_of f target }

/-- The inner loop of `analyze_project` over the raw specifiers of one file. -/
def processImports (projectRoot : String) (all : List String) (f : String)
    (h : Handler) (imps : List String) (g : Graph) : Graph :=
  imps.foldl (fun g imp =>
    match resolve_import projectRoot h f imp all with
    | some target => addEdge g f target
    | none => g) g

/-- `analyze_project`: initialize both dictionaries with every scanned
file mapped to an empty set, then add an edge pair for every resolved
specifier.  `rawImps f` stands for the specifiers extracted from the text
of `f` (empty when the file is unreadable or has no recognized language
patterns). -/
def initGraph (files : List String) : Graph :=
  { referenced_by := files.map (fun f => (f, [])),
    imports_of := files.map (fun f => (f, [])) }

def analyze_project (projectRoot : String) (files : List String)
    (rawImps : String → List String) : Graph :=
  files.foldl (fun g f =>
    match detect_language_for_file f with
    | none => g
    | some lang =>
      match getHandler lang with
      | none => g
      | some h => processImports projectRoot files f h (rawImps f) g) (initGraph files)

theorem probeList_mem {all : List String} :
    ∀ {cands : List String} {r : String}, probeList all cands = some r → r ∈ all := by
  intro cands
  induction cands with
  | nil => intro r h; cases h
  | cons c rest ih =>
    intro r h
    unfold probeList at h
    by_cases hc : all.contains (normpath c) = true
    · rw [if_pos hc] at h
      injection h with h
      subst h
      exact listContains_iff.1 hc
    · rw [if_neg hc] at h
      exact ih h

theorem resolve_import_mem {projectRoot : String} {h : Handler}
    {base_file imp : String} {all : List String} {t : String}
    (hres : resolve_import projectRoot h base_file imp all = some t) : t ∈ all := by
  unfold resolve_import at hres
  by_cases h1 : pyStrip imp = ""
  · rw [if_pos h1] at hres; cases hres
  · rw [if_neg h1] at hres
    by_cases h2 : (strStartsWith (pyStripChars (pyStrip imp) ['"', '\'']) "." ||
        strStartsWith (pyStripChars (pyStrip imp) ['"', '\'']) "/") = true
    · rw [if_pos h2] at hres
      unfold resolveRelative at hres
      rcases hp : probeList all (extCandidates h
          (normpath (pathJoin (dirname base_file)
            (pyStripChars (pyStrip imp) ['"', '\''])))) with _ | r
      · rw [hp] at hres
        simp only at hres
        by_cases hc : all.contains (normpath (normpath (pathJoin (dirname base_file)
            (pyStripChars (pyStrip imp) ['"', '\''])))) = true
        · rw [if_pos hc] at hres
          injection hres with hres
          subst hres
          exact listContains_iff.1 hc
        · rw [if_neg hc] at hres; cases hres
      · rw [hp] at hres
        simp only at hres
        injection hres with hres
        subst hres
        exact probeList_mem hp
    · rw [if_neg h2] at hres
      rcases hp : resolvePathLike projectRoot h
          (pyStripChars (pyStrip imp) ['"', '\'']) all with _ | r
      · rw [hp] at hres
        simp only at hres
        unfold resolveNamespace at hres
        by_cases hns : (strContains (pyStripChars (pyStrip imp) ['"', '\'']) "." &&
            (h.name = "java" || h.name = "csharp")) = true
        · rw [if_pos hns] at hres
          exact probeList_mem hres
        · rw [if_neg hns] at hres; cases hres
      · rw [hp] at hres
        simp only at hres
        injection hres with hres
        subst hres
        unfold resolvePathLike at hp
        by_cases hsl : strContains (pyStripChars (pyStrip imp) ['"', '\'']) "/" = true
        · rw [if_pos hsl] at hp
          exact probeList_mem hp
        · rw [if_neg hsl] at hp; cases hp

theorem mem_setAdd {w : List String} {v x : String} :
    (x ∈ (if w.contains v then w else w ++ [v])) ↔ x ∈ w ∨ x = v := by
  by_cases hc : w.contains v = true
  · rw [if_pos hc]
    constructor
    · exact Or.inl
    · intro hx
      rcases hx with hx | hx
      · exact hx
      · subst hx; exact listContains_iff.1 hc
  · rw [if_neg hc]
    simp

theorem gGet_cons_eq {a k : String} {w : List String}
    {rest : List (String × List String)} (h : k = a) :
    gGet ((a, w) :: rest) k = w := by
  show ((if k = a then some w else lookupStr rest k).getD []) = w
  rw [if_pos h]
  rfl

theorem gGet_cons_ne {a k : String} {w : List String}
    {rest : List (String × List String)} (h : ¬ k = a) :
    gGet ((a, w) :: rest) k = gGet rest k := by
  show ((if k = a then some w else lookupStr rest k).getD []) = _
  rw [if_neg h]
  rfl

theorem gAdd_keys (k v : String) :
    ∀ m : List (String × List String), (gAdd m k v).map Prod.fst = m.map Prod.fst := by
  intro m
  induction m with
  | nil => rfl
  | cons e rest ih =>
    by_cases he : e.1 = k
    · simp only [gAdd, List.map_cons, List.map_map] at *
      rw [if_pos he]
      simpa using ih
    · simp only [gAdd, List.map_cons, List.map_map] at *
      rw [if_neg he]
      simpa using ih

theorem gGet_gAdd_ne {k k' v : String} (hne : k' ≠ k) :
    ∀ m : List (String × List String), gGet (gAdd m k v) k' = gGet m k' := by
  intro m
  induction m with
  | nil => rfl
  | cons e rest ih =>
    obtain ⟨a, w⟩ := e
    show gGet ((if a = k then (a, if w.contains v then w else w ++ [v]) else (a, w)) ::
      gAdd rest k v) k' = gGet ((a, w) :: rest) k'
    by_cases he : a = k
    · rw [if_pos he]
      have hk' : ¬ k' = a := fun h => hne (h.trans he)
      rw [gGet_cons_ne hk', gGet_cons_ne hk']
      exact ih
    · rw [if_neg he]
      by_cases hk' : k' = a
      · rw [gGet_cons_eq hk', gGet_cons_eq hk']
      · rw [gGet_cons_ne hk', gGet_cons_ne hk']
        exact ih

theorem gGet_gAdd_self {k v x : String} :
    ∀ m : List (String × List String),
      (x ∈ gGet (gAdd m k v) k ↔ x ∈ gGet m k ∨ (k ∈ m.map Prod.fst ∧ x = v)) := by
  intro m
  induction m with
  | nil => simp [gAdd, gGet, lookupStr]
  | cons e rest ih =>
    obtain ⟨a, w⟩ := e
    show x ∈ gGet ((if a = k then (a, if w.contains v then w else w ++ [v]) else (a, w)) ::
      gAdd rest k v) k ↔ x ∈ gGet ((a, w) :: rest) k ∨ _
    by_cases he : a = k
    · rw [if_pos he]
      rw [gGet_cons_eq he.symm, gGet_cons_eq he.symm, mem_setAdd]
      have hk : k ∈ ((a, w) :: rest).map Prod.fst := by
        simp [he]
      constructor
      · intro hx
        rcases hx with hx | hx
        · exact Or.inl hx
        · exact Or.inr ⟨hk, hx⟩
      · intro hx
        rcases hx with hx | ⟨_, hx⟩
        · exact Or.inl hx
        · exact Or.inr hx
    · have hne : ¬ k = a := fun h => he h.symm
      rw [if_neg he]
      rw [gGet_cons_ne hne, gGet_cons_ne hne, ih]
      simp only [List.map_cons, List.mem_cons]
      constructor
      · intro hx
        rcases hx with hx | ⟨hk, hx⟩
        · exact Or.inl hx
        · exact Or.inr ⟨Or.inr hk, hx⟩
      · intro hx
        rcases hx with hx | ⟨hk, hx⟩
        · exact Or.inl hx
        · rcases hk with hk | hk
          · exact absurd hk hne
          · exact Or.inr ⟨hk, hx⟩

theorem gGet_gAdd_iff {k v x k' : String} {m : List (String × List String)} :
    x ∈ gGet (gAdd m k v) k' ↔ x ∈ gGet m k' ∨ (k' = k ∧ k ∈ m.map Prod.fst ∧ x = v) := by
  by_cases hk : k' = k
  · subst hk
    rw [gGet_gAdd_self m]
    constructor
    · intro hx
      rcases hx with hx | ⟨hk, hx⟩
      · exact Or.inl hx
      · exact Or.inr ⟨rfl, hk, hx⟩
    · intro hx
      rcases hx with hx | ⟨_, hk, hx⟩
      · exact Or.inl hx
      · exact Or.inr ⟨hk, hx⟩
  · rw [gGet_gAdd_ne hk m]
    constructor
    · exact Or.inl
    · intro hx
      rcases hx with hx | ⟨he, _⟩
      · exact hx
      · exact absurd he hk

theorem gGet_init_nil : ∀ (fs : List String) (k : String),
    gGet (fs.map (fun f => (f, ([] : List String)))) k = [] := by
  intro fs
  induction fs with
  | nil => intro k; rfl
  | cons f rest ih =>
    intro k
    unfold gGet lookupStr
    by_cases hk : k = f
    · simp [hk]
    · simp only [List.map_cons, if_neg hk]
      exact ih k

/-- The C1 invariant: both dictionaries are keyed exactly by the scanned
files, every edge endpoint is a scanned file, and `referenced_by` is the
transpose of `imports_of`. -/
def GraphInv (files : List String) (g : Graph) : Prop :=
  g.referenced_by.map Prod.fst = files ∧
  g.imports_of.map Prod.fst = files ∧
  (∀ f t, t ∈ gGet g.imports_of f → f ∈ files ∧ t ∈ files) ∧
  (∀ f t, t ∈ gGet g.imports_of f ↔ f ∈ gGet g.referenced_by t)

theorem addEdge_inv {files : List String} {g : Graph} {f t : String}
    (hinv : GraphInv files g) (hf : f ∈ files) (ht : t ∈ files) :
    GraphInv files (addEdge g f t) := by
  obtain ⟨hkr, hki, hmem, hiff⟩ := hinv
  refine ⟨?_, ?_, ?_, ?_⟩
  · show (gAdd g.referenced_by t f).map Prod.fst = files
    rw [gAdd_keys, hkr]
  · show (gAdd g.imports_of f t).map Prod.fst = files
    rw [gAdd_keys, hki]
  · intro f' t' hedge
    rw [show (addEdge g f t).imports_of = gAdd g.imports_of f t from rfl] at hedge
    rw [gGet_gAdd_iff] at hedge
    rcases hedge with hold | ⟨he1, _, he2⟩
    · exact hmem f' t' hold
    · subst he1; subst he2
      exact ⟨hf, ht⟩
  · intro f' t'
    show t' ∈ gGet (gAdd g.imports_of f t) f' ↔ f' ∈ gGet (gAdd g.referenced_by t f) t'
    rw [gGet_gAdd_iff, gGet_gAdd_iff, hki, hkr, ← hiff f' t']
    constructor
    · intro hx
      rcases hx with hx | ⟨he1, _, he2⟩
      · exact Or.inl hx
      · exact Or.inr ⟨he2, ht, he1⟩
    · intro hx
      rcases hx with hx | ⟨he1, _, he2⟩
      · exact Or.inl hx
      · exact Or.inr ⟨he2, hf, he1⟩

theorem processImports_inv {projectRoot : String} {files : List String}
    {f : String} {h : Handler} (hf : f ∈ files) :
    ∀ (imps : List String) (g : Graph), GraphInv files g →
      GraphInv files (processImports projectRoot files f h imps g) := by
  intro imps
  induction imps with
  | nil => intro g hg; exact hg
  | cons imp rest ih =>
    intro g hg
    show GraphInv files (List.foldl _ _ _)
    rw [List.foldl_cons]
    rcases hres : resolve_import projectRoot h f imp files with _ | target
    · simp only [hres]
      exact ih g hg
    · simp only [hres]
      exact ih _ (addEdge_inv hg hf (resolve_import_mem hres))

/-- Claim C1: in every graph `analyze_project` builds, both dictionaries
have exactly the scanned files as keys, every file in a value set of
`imports_of` or `referenced_by` is a member of the node set (hence a key
of both), and `referenced_by` is the exact transpose of `imports_of`. -/
theorem map_fst_pair_nil :
    ∀ fs : List String, (fs.map (fun f => (f, ([] : List String)))).map Prod.fst = fs := by
  intro fs
  induction fs with
  | nil => rfl
  | cons f rest ih => simp only [List.map_cons, ih]

theorem initGraph_inv (files : List String) : GraphInv files (initGraph files) := by
  refine ⟨map_fst_pair_nil files, map_fst_pair_nil files, ?_, ?_⟩
  · intro f t hedge
    have hedge' : t ∈ gGet (files.map (fun f => (f, []))) f := hedge
    rw [gGet_init_nil] at hedge'
    cases hedge'
  · intro f t
    show t ∈ gGet (files.map (fun f => (f, []))) f ↔
      f ∈ gGet (files.map (fun f => (f, []))) t
    rw [gGet_init_nil, gGet_init_nil]
    simp

theorem claim_C1_graph_invariants (projectRoot : String) (files : List String)
    (rawImps : String → List String) :
    (analyze_project projectRoot files rawImps).referenced_by.map Prod.fst = files ∧
    (analyze_project projectRoot files rawImps).imports_of.map Prod.fst = files ∧
    (∀ f t, t ∈ gGet (analyze_project projectRoot files rawImps).imports_of f →
      f ∈ files ∧ t ∈ files) ∧
    (∀ f t, f ∈ gGet (analyze_project projectRoot files rawImps).referenced_by t →
      f ∈ files ∧ t ∈ files) ∧
    (∀ f t, t ∈ gGet (analyze_project projectRoot files rawImps).imports_of f ↔
      f ∈ gGet (analyze_project projectRoot files rawImps).referenced_by t) := by
  have hfold : ∀ (l : List String) (g : Graph), (∀ x ∈ l, x ∈ files) →
      GraphInv files g →
      GraphInv files (l.foldl (fun g f =>
        match detect_language_for_file f with
        | none => g
        | some lang =>
          match getHandler lang with
          | none => g
          | some h => processImports projectRoot files f h (rawImps f) g) g) := by
    intro l
    induction l with
    | nil => intro g _ hg; exact hg
    | cons f rest ih =>
      intro g hsub hg
      rw [List.foldl_cons]
      have hf : f ∈ files := hsub f (List.mem_cons_self f rest)
      have hrest : ∀ x ∈ rest, x ∈ files := fun x hx =>
        hsub x (List.mem_cons_of_mem f hx)
      cases hdet : detect_language_for_file f with
      | none =>
        simp only [hdet]
        exact ih g hrest hg
      | some lang =>
        cases hh : getHandler lang with
        | none =>
          simp only [hdet, hh]
          exact ih g hrest hg
        | some hnd =>
          simp only [hdet, hh]
          exact ih _ hrest (processImports_inv hf (rawImps f) g hg)
  have hmain : GraphInv files (analyze_project projectRoot files rawImps) := by
    show GraphInv files (files.foldl _ (initGraph files))
    exact hfold files (initGraph files) (fun x hx => hx) (initGraph_inv files)
  obtain ⟨h1, h2, h3, h4⟩ := hmain
  refine ⟨h1, h2, h3, ?_, h4⟩
  intro f t hedge
  exact h3 f t ((h4 f t).2 hedge)

/-- The two-file example of the spec: `a.js` imports `./b`. -/
def c1files : List String := ["src/a.js", "src/b.js"]

def c1imps (f : String) : List String :=
  if f = "src/a.js" then ["./b"] else []

/-- Concrete instance of the C1 invariants on the two-file example of the spec. -/
theorem claim_C1_witness :
    "src/b.js" ∈ gGet (analyze_project "src" c1files c1imps).imports_of "src/a.js" ∧
    ("src/a.js" ∈ c1files ∧ "src/b.js" ∈ c1files) ∧
    "src/a.js" ∈ gGet (analyze_project "src" c1files c1imps).referenced_by "src/b.js" := by
  have hedge : "src/b.js" ∈ gGet (analyze_project "src" c1files c1imps).imports_of
      "src/a.js" := by decide
  refine ⟨hedge, ?_, ?_⟩
  · have := (claim_C1_graph_invariants "src" c1files c1imps).2.2.1 _ _ hedge
    exact this
  · exact ((claim_C1_graph_invariants "src" c1files c1imps).2.2.2.2 _ _).1 hedge

/-! ## Ascending string sort (Python `sorted`) and order lemmas -/

theorem chLt_trans : ∀ a b c : List Char,
    chLt a b = true → chLt b c = true → chLt a c = true := by
  intro a
  induction a with
  | nil =>
    intro b c hab hbc
    cases b with
    | nil => cases hab
    | cons y bs =>
      cases c with
      | nil => cases hbc
      | cons z cs => rfl
  | cons x as ih =>
    intro b c hab hbc
    cases b with
    | nil => cases hab
    | cons y bs =>
      cases c with
      | nil => cases hbc
      | cons z cs =>
        by_cases hxy : x = y
        · subst hxy
          simp only [chLt, if_pos rfl] at hab
          by_cases hyz : x = z
          · subst hyz
            simp only [chLt, if_pos rfl] at hbc ⊢
            exact ih bs cs hab hbc
          · simp only [chLt, if_neg hyz] at hbc ⊢
            exact hbc
        · simp only [chLt, if_neg hxy] at hab
          have hltxy : x < y := of_decide_eq_true hab
          by_cases hyz : y = z
          · subst hyz
            simp only [chLt, if_neg hxy]
            exact hab
          · simp only [chLt, if_neg hyz] at hbc
            have hltyz : y < z := of_decide_eq_true hbc
            have hltxz : x < z := lt_trans hltxy hltyz
            have hxz : ¬ x = z := ne_of_lt hltxz
            simp only [chLt, if_neg hxz]
            exact decide_eq_true hltxz

theorem strLe_total {a b : String} (h : strLe a b = false) : strLe b a = true := by
  unfold strLe at *
  have hlt : strLt b a = true := by
    cases hx : strLt b a with
    | true => rfl
    | false => rw [hx] at h; cases h
  rw [strLt_asymm hlt]
  rfl

theorem chLt_trichotomy : ∀ a b : List Char,
    chLt a b = true ∨ a = b ∨ chLt b a = true := by
  intro a
  induction a with
  | nil =>
    intro b
    cases b with
    | nil => exact Or.inr (Or.inl rfl)
    | cons y bs => exact Or.inl rfl
  | cons x as ih =>
    intro b
    cases b with
    | nil => exact Or.inr (Or.inr rfl)
    | cons y bs =>
      by_cases hxy : x = y
      · subst hxy
        rcases ih bs with h | h | h
        · exact Or.inl (by simp [chLt, h])
        · exact Or.inr (Or.inl (by rw [h]))
        · exact Or.inr (Or.inr (by simp [chLt, h]))
      · rcases lt_or_gt_of_ne (fun h => hxy h : x ≠ y) with h | h
        · exact Or.inl (by simp [chLt, if_neg hxy, h])
        · have hyx : ¬ y = x := fun e => hxy e.symm
          exact Or.inr (Or.inr (by simp [chLt, if_neg hyx, h]))

theorem strLe_trans {a b c : String} (hab : strLe a b = true) (hbc : strLe b c = true) :
    strLe a c = true := by
  unfold strLe at *
  cases hca : strLt c a with
  | false => rfl
  | true =>
    exfalso
    have hba : strLt b a = false := by
      cases hx : strLt b a with
      | false => rfl
      | true => rw [hx] at hab; cases hab
    have hcb : strLt c b = false := by
      cases hx : strLt c b with
      | false => rfl
      | true => rw [hx] at hbc; cases hbc
    rcases chLt_trichotomy a.data b.data with h | h | h
    · have : chLt c.data b.data = true := chLt_trans c.data a.data b.data hca h
      rw [show strLt c b = chLt c.data b.data from rfl, this] at hcb
      cases hcb
    · have hab' : a = b := by
        cases a; cases b
        simp only at h
        rw [h]
      rw [hab'] at hca
      rw [show strLt c b = chLt c.data b.data from rfl] at hcb
      rw [show strLt c b = chLt c.data b.data from rfl] at hca
      rw [hca] at hcb
      cases hcb
    · rw [show strLt b a = chLt b.data a.data from rfl, h] at hba
      cases hba

/-- Stable ascending insertion, `sorted(l)` on strings. -/
def insertAsc (a : String) : List String → List String
  | [] => [a]
  | b :: l => if strLe a b then a :: b :: l else b :: insertAsc a l

def sortAsc (l : List String) : List String := l.foldr insertAsc []

theorem insertAsc_mem {x a : String} : ∀ l : List String,
    (x ∈ insertAsc a l ↔ x = a ∨ x ∈ l) := by
  intro l
  induction l with
  | nil => simp [insertAsc]
  | cons b t ih =>
    by_cases h : strLe a b = true
    · simp [insertAsc, h]
    · simp only [insertAsc, if_neg h, List.mem_cons, ih]
      tauto

theorem sortAsc_mem {x : String} : ∀ l : List String, (x ∈ sortAsc l ↔ x ∈ l) := by
  intro l
  induction l with
  | nil => simp [sortAsc]
  | cons a t ih =>
    show x ∈ insertAsc a (sortAsc t) ↔ _
    rw [insertAsc_mem, ih]
    simp

/-- Ascending sortedness as a relation for `List.Pairwise`. -/
def strLeP (a b : String) : Prop := strLe a b = true

theorem insertAsc_pairwise {a : String} :
    ∀ l : List String, l.Pairwise strLeP → (insertAsc a l).Pairwise strLeP := by
  intro l
  induction l with
  | nil => intro _; simp [insertAsc, List.pairwise_cons]
  | cons b t ih =>
    intro hp
    rw [List.pairwise_cons] at hp
    by_cases h : strLe a b = true
    · rw [show insertAsc a (b :: t) = a :: b :: t by simp [insertAsc, h]]
      rw [List.pairwise_cons]
      constructor
      · intro x hx
        rcases List.mem_cons.1 hx with hx | hx
        · subst hx; exact h
        · exact strLe_trans h (hp.1 x hx)
      · rw [List.pairwise_cons]
        exact hp
    · rw [show insertAsc a (b :: t) = b :: insertAsc a t by
        simp [insertAsc, if_neg h]]
      rw [List.pairwise_cons]
      constructor
      · intro x hx
        rcases (insertAsc_mem t).1 hx with hx | hx
        · subst hx
          exact strLe_total (by simpa using h)
        · exact hp.1 x hx
      · exact ih hp.2

theorem sortAsc_pairwise : ∀ l : List String, (sortAsc l).Pairwise strLeP := by
  intro l
  induction l with
  | nil => simp [sortAsc]
  | cons a t ih => exact insertAsc_pairwise (sortAsc t) ih

/-! ## Substring (infix) facts -/

theorem subListOf_infix_iff {n : List Char} :
    ∀ h : List Char, (subListOf n h = true ↔ n <:+: h) := by
  intro h
  induction h with
  | nil =>
    simp only [subListOf, List.isEmpty_iff]
    constructor
    · intro he; rw [he]
    · intro hi
      exact List.eq_nil_of_infix_nil hi
  | cons c rest ih =>
    show (n.isPrefixOf (c :: rest) || subListOf n rest) = true ↔ _
    rw [Bool.or_eq_true, List.isPrefixOf_iff_prefix, ih, List.infix_cons_iff]

theorem strContains_trans {p inner outer : String}
    (hin : subListOf inner.data outer.data = true)
    (houter : strContains p outer = true) : strContains p inner = true := by
  unfold strContains at *
  rw [subListOf_infix_iff] at *
  exact List.IsInfix.trans hin houter

/-! ## detect_dead_files (C6) -/

def ENTRY_POINT_NAMES : List String :=
  ["app.py", "main.py", "index.js", "index.ts", "server.js"]

/-- The per-file test of `detect_dead_files`: keep `f` in the dead list
when it has no incoming references and none of the exclusion heuristics
fires. -/
def isDead (referenced_by : String → List String) (f : String) : Bool :=
  (referenced_by f).isEmpty &&
  (let path_norm := strLower (replaceBackslash f)
   let bn := strLower (basename f)
   !(strContains path_norm "/pages/") &&
   !(strContains path_norm "/routes/") &&
   !(strStartsWith bn "index.") &&
   !(ENTRY_POINT_NAMES.contains bn) &&
   !(decide (detect_language_for_file f = some "java") &&
     (strContains path_norm "/src/main/" || strContains path_norm "/src/")))

/-- `detect_dead_files`: the unreferenced, unexcluded files, sorted. -/
def detect_dead_files (all_files : List String)
    (referenced_by : String → List String) : List String :=
  sortAsc (all_files.filter (isDead referenced_by))

/-- Claim C6: the dead-file report contains exactly the zero-in-edge
files not excluded by the heuristics — pages/routes path segment,
`index.` basename prefix, fixed entry-point names, and (for the
namespace language with a source-root convention, Java) a path containing
the `/src/` segment — and it is sorted; concretely, a zero-in-edge Java
file inside `/src/` is excluded while the identical file outside is
reported. -/
theorem claim_C6_dead_file_report (all_files : List String)
    (referenced_by : String → List String) :
    (∀ f, f ∈ detect_dead_files all_files referenced_by ↔
      f ∈ all_files ∧ referenced_by f = [] ∧
      strContains (strLower (replaceBackslash f)) "/pages/" = false ∧
      strContains (strLower (replaceBackslash f)) "/routes/" = false ∧
      strStartsWith (strLower (basename f)) "index." = false ∧
      ENTRY_POINT_NAMES.contains (strLower (basename f)) = false ∧
      ¬(detect_language_for_file f = some "java" ∧
        strContains (strLower (replaceBackslash f)) "/src/" = true)) ∧
    (detect_dead_files all_files referenced_by).Pairwise strLeP ∧
    detect_dead_files ["app/src/a.java"] (fun _ => []) = [] ∧
    detect_dead_files ["app/lib/a.java"] (fun _ => []) = ["app/lib/a.java"] := by
  refine ⟨?_, sortAsc_pairwise _, by decide, by decide⟩
  intro f
  unfold detect_dead_files
  rw [sortAsc_mem, List.mem_filter]
  constructor
  · rintro ⟨hmem, hdead⟩
    refine ⟨hmem, ?_⟩
    unfold isDead at hdead
    simp only [Bool.and_eq_true, Bool.not_eq_true', List.isEmpty_iff,
      Bool.or_eq_false_iff, decide_eq_true_eq] at hdead
    obtain ⟨hrefs, ⟨⟨⟨⟨hpages, hroutes⟩, hindex⟩, hentry⟩, hjava⟩⟩ := hdead
    refine ⟨hrefs, hpages, hroutes, hindex, hentry, ?_⟩
    rintro ⟨hlang, hsrc⟩
    rw [Bool.and_eq_false_iff] at hjava
    rcases hjava with hjava | hjava
    · rw [decide_eq_false_iff_not] at hjava
      exact hjava hlang
    · rw [Bool.or_eq_false_iff] at hjava
      rw [hjava.2] at hsrc
      cases hsrc
  · rintro ⟨hmem, hrefs, hpages, hroutes, hindex, hentry, hjava⟩
    refine ⟨hmem, ?_⟩
    unfold isDead
    simp only [Bool.and_eq_true, Bool.not_eq_true', List.isEmpty_iff,
      Bool.or_eq_false_iff, decide_eq_true_eq]
    refine ⟨hrefs, ⟨⟨⟨⟨hpages, hroutes⟩, hindex⟩, hentry⟩, ?_⟩⟩
    rw [Bool.and_eq_false_iff]
    by_cases hlang : detect_language_for_file f = some "java"
    · right
      rw [Bool.or_eq_false_iff]
      have hsrc : strContains (strLower (replaceBackslash f)) "/src/" = false := by
        cases hx : strContains (strLower (replaceBackslash f)) "/src/" with
        | false => rfl
        | true => exact absurd ⟨hlang, hx⟩ hjava
      constructor
      · cases hx : strContains (strLower (replaceBackslash f)) "/src/main/" with
        | false => rfl
        | true =>
          have := @strContains_trans (strLower (replaceBackslash f))
            "/src/" "/src/main/" (by decide) hx
          rw [this] at hsrc
          cases hsrc
      · exact hsrc
    · left
      rw [decide_eq_false_iff_not]
      exact hlang

/-! ## detect_broken_imports (C9)

Reading the text of a file and running the extraction regexes is abstracted as
a function from handler and file to the list of extracted raw
specifiers (`extract h f`); a file whose read fails or whose language is
unrecognized contributes nothing.  Resolution is the concrete
`resolve_import`. -/

/-- The inner filter of `detect_broken_imports` for one source file. -/
def brokenOfFile (projectRoot : String) (all : List String) (h : Handler)
    (src : String) (imps : List String) : List (String × String) :=
  imps.filterMap (fun imp =>
    if imp ≠ "" ∧ resolve_import projectRoot h src imp all = none ∧
        (strStartsWith imp "." = true ∨ strContains imp "/" = true ∨
          (strContains imp "." = true ∧ (h.name = "java" ∨ h.name = "csharp")))
    then some (src, imp) else none)

/-- `detect_broken_imports`: every (file, specifier) pair whose specifier
looks intra-project (leading dot, contains a slash, or dotted in a
namespace language) yet resolves to none against the full file set. -/
def detect_broken_imports (projectRoot : String) (all_files : List String)
    (extract : Handler → String → List String) : List (String × String) :=
  (all_files.map (fun src =>
    match detect_language_for_file src with
    | none => []
    | some lang =>
      match getHandler lang with
      | none => []
      | some h => brokenOfFile projectRoot all_files h src (extract h src))).flatten

theorem brokenOfFile_mem {projectRoot : String} {all : List String} {h : Handler}
    {src f imp : String} {imps : List String} :
    (f, imp) ∈ brokenOfFile projectRoot all h src imps ↔
      f = src ∧ imp ∈ imps ∧ imp ≠ "" ∧
      resolve_import projectRoot h src imp all = none ∧
      (strStartsWith imp "." = true ∨ strContains imp "/" = true ∨
        (strContains imp "." = true ∧ (h.name = "java" ∨ h.name = "csharp"))) := by
  unfold brokenOfFile
  rw [List.mem_filterMap]
  constructor
  · rintro ⟨a, ha, hcond⟩
    by_cases hc : a ≠ "" ∧ resolve_import projectRoot h src a all = none ∧
        (strStartsWith a "." = true ∨ strContains a "/" = true ∨
          (strContains a "." = true ∧ (h.name = "java" ∨ h.name = "csharp")))
    · rw [if_pos hc] at hcond
      injection hcond with h1
      injection h1 with h2 h3
      subst h2
      subst h3
      exact ⟨rfl, ha, hc⟩
    · rw [if_neg hc] at hcond
      cases hcond
  · rintro ⟨hf, himps, hcond⟩
    subst hf
    exact ⟨imp, himps, by rw [if_pos hcond]⟩

/-- Claim C9: `detect_broken_imports` reports exactly the (file,
specifier) pairs where the extracted specifier fails to resolve and looks
path-like — starts with a dot, contains a slash, or contains a dot in a
file of the two namespace languages (java, csharp); specifiers of any
other shape are never reported. -/
theorem claim_C9_broken_import_characterization (projectRoot : String)
    (all_files : List String) (extract : Handler → String → List String)
    (f imp : String) :
    (f, imp) ∈ detect_broken_imports projectRoot all_files extract ↔
      f ∈ all_files ∧
      (∃ h : Handler,
        (detect_language_for_file f).bind getHandler = some h ∧
        imp ∈ extract h f ∧ imp ≠ "" ∧
        resolve_import projectRoot h f imp all_files = none ∧
        (strStartsWith imp "." = true ∨ strContains imp "/" = true ∨
          (strContains imp "." = true ∧ (h.name = "java" ∨ h.name = "csharp")))) := by
  unfold detect_broken_imports
  rw [List.mem_flatten]
  constructor
  · rintro ⟨chunk, hchunk, hpair⟩
    rw [List.mem_map] at hchunk
    obtain ⟨src, hsrc, hdef⟩ := hchunk
    subst hdef
    cases hdet : detect_language_for_file src with
    | none => simp only [hdet] at hpair; cases hpair
    | some lang =>
      simp only [hdet] at hpair
      cases hh : getHandler lang with
      | none => simp only [hh] at hpair; cases hpair
      | some hnd =>
        simp only [hh] at hpair
        rw [brokenOfFile_mem] at hpair
        obtain ⟨hf, himps, hne, hres, hshape⟩ := hpair
        subst hf
        refine ⟨hsrc, hnd, ?_, himps, hne, hres, hshape⟩
        rw [hdet]
        exact hh
  · rintro ⟨hmem, hnd, hbind, himps, hne, hres, hshape⟩
    cases hdet : detect_language_for_file f with
    | none =>
      rw [hdet] at hbind
      cases hbind
    | some lang =>
      rw [hdet] at hbind
      have hh : getHandler lang = some hnd := hbind
      refine ⟨brokenOfFile projectRoot all_files hnd f (extract hnd f), ?_, ?_⟩
      · rw [List.mem_map]
        refine ⟨f, hmem, ?_⟩
        simp only [hdet, hh]
      · rw [brokenOfFile_mem]
        exact ⟨rfl, himps, hne, hres, hshape⟩

/-! ## build_file_list with the mtime cache (C5)

The filesystem is a flat list of file entries (directory segments under
the scan root, filename, mtime), listed in the order `os.walk` would
reach them.  `os.walk` with `topdown=True` prunes any directory whose
name is excluded, so a file is scanned exactly when no segment of its
directory path is excluded and its name passes the skip/extension
filter; its recorded path is `normpath(join(walk dir, name))`.  `os.path`
calls during cache validation consult the same entries unfiltered. -/

structure FsEntry where
  dirs : List String
  name : String
  mtime : Nat

/-- The path the scanner records for an entry. -/
def entryPath (root : String) (e : FsEntry) : String :=
  normpath (pathJoin (e.dirs.foldl pathJoin root) e.name)

/-- The ordered file list a full walk produces. -/
def walkFiles (root : String) (fs : List FsEntry) : List String :=
  (fs.filter (fun e =>
    e.dirs.all (fun d => !EXCLUDED_DIRS.contains d) && keepFile e.name)).map
    (entryPath root)

/-- Every path with its mtime, as `os.path.exists` / `os.path.getmtime`
see them. -/
def allStats (root : String) (fs : List FsEntry) : List (String × Nat) :=
  fs.map (fun e => (entryPath root e, e.mtime))

def statFile (root : String) (fs : List FsEntry) (p : String) : Option Nat :=
  lookupStr (allStats root fs) p

structure CacheEntry where
  path : String
  mtime : Nat

structure ScanCache where
  root : String
  files : List CacheEntry

/-- The cache-hit test of `build_file_list`: recorded root equals the
absolute scan root, and every cached path is nonempty, still exists, and
has an unchanged mtime. -/
def cacheValid (root : String) (fs : List FsEntry) (absRoot : String)
    (c : ScanCache) : Bool :=
  c.root == absRoot &&
  c.files.all (fun e =>
    decide (e.path ≠ "") && (statFile root fs e.path == some e.mtime))

/-- The cache written after a walk: each listed path with its current
mtime (0 when stat fails). -/
def writeCache (root : String) (fs : List FsEntry) (absRoot : String)
    (files : List String) : ScanCache :=
  { root := absRoot,
    files := files.map (fun p =>
      { path := p, mtime := (statFile root fs p).getD 0 }) }

/-- `build_file_list`: `(returned list, whether a walk ran, cache on disk
afterwards)`.  With a usable valid cache the cached list is returned and
no walk runs; otherwise a walk runs and the cache is rewritten. -/
def build_file_list (root : String) (fs : List FsEntry) (absRoot : String)
    (cache : Option ScanCache) (use_cache : Bool) :
    List String × Bool × ScanCache :=
  match cache, use_cache with
  | some c, true =>
    if cacheValid root fs absRoot c then (c.files.map (fun e => e.path), false, c)
    else (walkFiles root fs, true, writeCache root fs absRoot (walkFiles root fs))
  | _, _ => (walkFiles root fs, true, writeCache root fs absRoot (walkFiles root fs))

theorem normpath_ne_empty (p : String) : normpath p ≠ "" := by
  unfold normpath
  by_cases hp : p = ""
  · rw [if_pos hp]
    decide
  · rw [if_neg hp]
    by_cases hb : normBody p = ""
    · rw [if_pos hb]
      decide
    · rw [if_neg hb]
      exact hb

theorem lookup_nodup : ∀ (l : List (String × Nat)) (p : String) (m : Nat),
    (l.map Prod.fst).Nodup → (p, m) ∈ l → lookupStr l p = some m := by
  intro l
  induction l with
  | nil => intro p m _ hm; cases hm
  | cons e rest ih =>
    intro p m hnd hm
    obtain ⟨a, w⟩ := e
    rw [List.map_cons, List.nodup_cons] at hnd
    rcases List.mem_cons.1 hm with hm | hm
    · injection hm with h1 h2
      subst h1; subst h2
      show (if p = p then some m else lookupStr rest p) = some m
      rw [if_pos rfl]
    · have hp : ¬ p = a := by
        intro he
        apply hnd.1
        rw [← he]
        exact List.mem_map.2 ⟨(p, m), hm, rfl⟩
      show (if p = a then some w else lookupStr rest p) = some m
      rw [if_neg hp]
      exact ih p m hnd.2 hm

theorem walkFiles_stat {root : String} {fs : List FsEntry} {p : String}
    (hp : p ∈ walkFiles root fs) : ∃ m : Nat, (p, m) ∈ allStats root fs := by
  unfold walkFiles at hp
  rw [List.mem_map] at hp
  obtain ⟨e, he, hpath⟩ := hp
  subst hpath
  exact ⟨e.mtime, List.mem_map_of_mem _ (List.mem_of_mem_filter he)⟩

/-- Claim C5: scanning an unchanged tree twice with caching on — the
first scan walks and writes the cache; the second returns the identical
file list from the cache without walking, and that list equals what an
uncached rescan of the same tree returns.  Hypothesis: distinct files
have distinct paths (true of a real filesystem). -/
theorem claim_C5_cache_hit_equals_rescan (root absRoot : String)
    (fs : List FsEntry)
    (hnd : ((allStats root fs).map Prod.fst).Nodup) :
    (build_file_list root fs absRoot
        (some (build_file_list root fs absRoot none true).2.2) true).1 =
      (build_file_list root fs absRoot none true).1 ∧
    (build_file_list root fs absRoot
        (some (build_file_list root fs absRoot none true).2.2) true).2.1 = false ∧
    (build_file_list root fs absRoot none true).1 =
      (build_file_list root fs absRoot none false).1 := by
  have hfirst : build_file_list root fs absRoot none true =
      (walkFiles root fs, true, writeCache root fs absRoot (walkFiles root fs)) := rfl
  have hvalid : cacheValid root fs absRoot
      (writeCache root fs absRoot (walkFiles root fs)) = true := by
    unfold cacheValid writeCache
    rw [Bool.and_eq_true]
    constructor
    · exact beq_self_eq_true absRoot
    · rw [List.all_eq_true]
      intro e he
      rw [List.mem_map] at he
      obtain ⟨p, hp, hdef⟩ := he
      subst hdef
      obtain ⟨m, hm⟩ := walkFiles_stat hp
      have hstat : statFile root fs p = some m :=
        lookup_nodup (allStats root fs) p m hnd hm
      rw [Bool.and_eq_true]
      constructor
      · rw [decide_eq_true_eq]
        intro hpe
        have hne : p ≠ "" := by
          unfold walkFiles at hp
          rw [List.mem_map] at hp
          obtain ⟨e2, _, hpath⟩ := hp
          subst hpath
          exact normpath_ne_empty _
        exact hne hpe
      · show (statFile root fs p == some ((statFile root fs p).getD 0)) = true
        rw [hstat]
        simp
  have hkey : build_file_list root fs absRoot
      (some (build_file_list root fs absRoot none true).2.2) true =
      ((writeCache root fs absRoot (walkFiles root fs)).files.map (fun e => e.path),
        false, writeCache root fs absRoot (walkFiles root fs)) := by
    have h22 : (build_file_list root fs absRoot none true).2.2 =
        writeCache root fs absRoot (walkFiles root fs) := rfl
    rw [h22]
    show (if cacheValid root fs absRoot
        (writeCache root fs absRoot (walkFiles root fs)) = true
      then ((writeCache root fs absRoot (walkFiles root fs)).files.map
        (fun e => e.path), false, writeCache root fs absRoot (walkFiles root fs))
      else (walkFiles root fs, true,
        writeCache root fs absRoot (walkFiles root fs))) = _
    rw [hvalid]
    rfl
  have hlist : ∀ l : List String,
      ((writeCache root fs absRoot l).files).map (fun e => e.path) = l := by
    intro l
    unfold writeCache
    induction l with
    | nil => rfl
    | cons p rest ih => simpa using ih
  refine ⟨?_, ?_, ?_⟩
  · rw [hkey]
    exact hlist (walkFiles root fs)
  · rw [hkey]
  · rfl

/-- Concrete instance of the C5 cache-hit equivalence. -/
theorem claim_C5_witness :
    ((allStats "src" [⟨[], "a.js", 5⟩, ⟨["node_modules"], "b.js", 6⟩,
        ⟨["lib"], "c.py", 7⟩]).map Prod.fst).Nodup ∧
    (build_file_list "src" [⟨[], "a.js", 5⟩, ⟨["node_modules"], "b.js", 6⟩,
        ⟨["lib"], "c.py", 7⟩] "/abs/src"
      (some (build_file_list "src" [⟨[], "a.js", 5⟩, ⟨["node_modules"], "b.js", 6⟩,
        ⟨["lib"], "c.py", 7⟩] "/abs/src" none true).2.2) true).1 =
      (build_file_list "src" [⟨[], "a.js", 5⟩, ⟨["node_modules"], "b.js", 6⟩,
        ⟨["lib"], "c.py", 7⟩] "/abs/src" none true).1 :=
  ⟨by decide,
   (claim_C5_cache_hit_equals_rescan "src" "/abs/src"
     [⟨[], "a.js", 5⟩, ⟨["node_modules"], "b.js", 6⟩, ⟨["lib"], "c.py", 7⟩]
     (by decide)).1⟩

/-! ## A small regex engine for the JS/TS import patterns (C7, C8)

The three JavaScript/TypeScript patterns use only literals, the classes
`\s`, `[^'"]`, `['"]`, greedy `+` / `*` on a class, and one capturing
group.  The engine below implements Python `re` semantics for exactly
this fragment: leftmost match, greedy quantifiers with backtracking,
`search` trying successive start positions, `finditer` resuming after
each non-overlapping match.  `\s` is taken at its ASCII extent (every
string involved is ASCII). -/

inductive CharClass where
  | ws
  | notQuote
  | quote

def CharClass.test : CharClass → Char → Bool
  | .ws, c => isPyWs c
  | .notQuote, c => !(c = '\'' ∨ c = '"')
  | .quote, c => (c = '\'' ∨ c = '"')

inductive RItem where
  | lit (s : String)
  | one (c : CharClass)
  | plus (c : CharClass)
  | star (c : CharClass)
  | group (c : CharClass)

/-- The possible (consumed, rest) splits of a greedy class repetition with
at least `lo` characters, longest consumed first — the order a
backtracking engine tries them. -/
def greedyRests (c : CharClass) (lo : Nat) (cs : List Char) : List (List Char × List Char) :=
  let n := (cs.takeWhile c.test).length
  (List.range (n + 1 - lo)).map (fun j => (cs.take (n - j), cs.drop (n - j)))

/-- Match an item list at the start of `cs`; on success return the
capture of the (single) group, if any, and the unconsumed rest. -/
def matchItems : List RItem → List Char → Option (Option (List Char) × List Char)
  | [], cs => some (none, cs)
  | .lit s :: rest, cs =>
    if s.data.isPrefixOf cs then matchItems rest (cs.drop s.data.length) else none
  | .one c :: rest, cs =>
    match cs with
    | [] => none
    | x :: xs => if c.test x then matchItems rest xs else none
  | .plus c :: rest, cs =>
    (greedyRests c 1 cs).findSome? (fun pr => matchItems rest pr.2)
  | .star c :: rest, cs =>
    (greedyRests c 0 cs).findSome? (fun pr => matchItems rest pr.2)
  | .group c :: rest, cs =>
    (greedyRests c 1 cs).findSome? (fun pr =>
      match matchItems rest pr.2 with
      | some (_, fin) => some (some pr.1, fin)
      | none => none)

/-- A Python match object restricted to what the source reads:
`group(0)` and `group(1)`. -/
structure MatchRes where
  g0 : String
  g1 : Option String
deriving DecidableEq

/-- Leftmost match: try each start position in order; also return the
rest of the string after the match (for `finditer`). -/
def searchRun (items : List RItem) : List Char → Option (MatchRes × List Char)
  | [] =>
    match matchItems items [] with
    | some (g, fin) => some (⟨⟨[]⟩, g.map (fun l => ⟨l⟩)⟩, fin)
    | none => none
  | c :: cs =>
    match matchItems items (c :: cs) with
    | some (g, fin) =>
      some (⟨⟨(c :: cs).take ((c :: cs).length - fin.length)⟩,
        g.map (fun l => ⟨l⟩)⟩, fin)
    | none => searchRun items cs

/-- Non-overlapping matches, resuming after each match.  The fuel bounds
the iteration count; every pattern here consumes at least one character
per match, and the guard stops anyway if one did not. -/
def finditerAux (items : List RItem) : Nat → List Char → List MatchRes
  | 0, _ => []
  | fuel + 1, cs =>
    match searchRun items cs with
    | none => []
    | some (m, fin) =>
      m :: (if fin.length < cs.length then finditerAux items fuel fin else [])

/-- A compiled pattern as the source uses it: `rx.search` on a line and
`rx.finditer` on a whole text. -/
structure Pat where
  search : String → Option MatchRes
  finditer : String → List MatchRes

def patOf (items : List RItem) : Pat :=
  { search := fun s => (searchRun items s.data).map Prod.fst,
    finditer := fun s => finditerAux items (s.data.length + 1) s.data }

/-- The items of the pattern matching quoted `import ... from` forms. -/
def jsP1 : List RItem :=
  [.lit "import", .plus .ws, .plus .notQuote, .lit "from", .plus .ws,
   .one .quote, .group .notQuote, .one .quote]

/-- The items of the pattern matching quoted `require(...)` calls. -/
def jsP2 : List RItem :=
  [.lit "require(", .star .ws, .one .quote, .group .notQuote, .one .quote,
   .star .ws, .lit ")"]

/-- The items of the pattern matching quoted dynamic `import(...)` calls. -/
def jsP3 : List RItem :=
  [.lit "import(", .star .ws, .one .quote, .group .notQuote, .one .quote,
   .star .ws, .lit ")"]

/-- `JS_IMPORTS` (also `TS_IMPORTS`, a copy). -/
def JS_IMPORTS : List Pat := [patOf jsP1, patOf jsP2, patOf jsP3]

/-- The pattern assignment used by the concrete instances below: the
regex list of the JavaScript/TypeScript handler.  Files of other languages do
not occur in those instances. -/
def jsLangPats (lang : String) : List Pat :=
  if lang = "javascript" ∨ lang = "typescript" then JS_IMPORTS else []

/-! ## readlines / writelines -/

/-- `fh.readlines()`: split keeping each terminating newline; a final
fragment without a newline is kept. -/
def pyReadlinesAux (acc : List Char) : List Char → List (List Char)
  | [] => if acc.isEmpty then [] else [acc.reverse]
  | c :: rest =>
    if c = '\n' then (acc.reverse ++ ['\n']) :: pyReadlinesAux [] rest
    else pyReadlinesAux (c :: acc) rest

def pyReadlines (s : String) : List String :=
  (pyReadlinesAux [] s.data).map (fun l => ⟨l⟩)

/-- `fh.writelines(lines)`: the concatenation of the lines. -/
def joinStrings (ls : List String) : String :=
  ⟨(ls.map String.data).flatten⟩

theorem pyReadlinesAux_flatten :
    ∀ (cs acc : List Char), (pyReadlinesAux acc cs).flatten = acc.reverse ++ cs := by
  intro cs
  induction cs with
  | nil =>
    intro acc
    by_cases ha : acc.isEmpty
    · have : acc = [] := by
        cases acc with
        | nil => rfl
        | cons x xs => simp [List.isEmpty] at ha
      rw [this]
      rfl
    · unfold pyReadlinesAux
      rw [if_neg ha]
      simp
  | cons c rest ih =>
    intro acc
    unfold pyReadlinesAux
    by_cases hc : c = '\n'
    · rw [if_pos hc]
      rw [List.flatten_cons, ih []]
      simp [hc]
    · rw [if_neg hc]
      rw [ih (c :: acc)]
      simp

/-- Splitting into lines and writing them back reproduces the bytes, so a
file whose every line is kept is written back unchanged (the source skips
the write then, with the same outcome). -/
theorem joinStrings_pyReadlines (s : String) : joinStrings (pyReadlines s) = s := by
  unfold joinStrings pyReadlines
  rw [List.map_map]
  have hcomp : (String.data ∘ fun l : List Char => (⟨l⟩ : String)) = id := by
    funext l
    rfl
  rw [hcomp, List.map_id, pyReadlinesAux_flatten s.data []]
  show (⟨s.data⟩ : String) = s
  cases s
  rfl

/-! ## comment_imports (C8) -/

/-- The specifier the preview phase reads off a match: `group(1)` when
present and non-empty, else `group(0)`. -/
def matchSpec (m : MatchRes) : String :=
  match m.g1 with
  | some g => if g = "" then m.g0 else g
  | none => m.g0

/-- One line triggers the comment-imports preview: some pattern matches
and the extracted specifier (backslashes normalized) contains the folder. -/
def commentPreviewLine (pats : List Pat) (folder line : String) : Bool :=
  pats.any (fun p =>
    match p.search line with
    | some m => strContains (replaceBackslash (matchSpec m)) folder
    | none => false)

def commentPreviewFile (pats : List Pat) (folder text : String) : Bool :=
  (pyReadlines text).any (commentPreviewLine pats folder)

def lineMatchesAny (pats : List Pat) (line : String) : Bool :=
  pats.any (fun p => (p.search line).isSome)

/-- The rewritten form of a commented-out import line. -/
def commentLine (lang line : String) : String :=
  if lang = "python" then
    "# " ++ pyRstripChar line '\n' ++ "  # removido pelo script\n"
  else
    "// " ++ pyRstripChar line '\n' ++ " // removido pelo script\n"

/-- The per-line rule of the mutation phase: a line is commented when
some import pattern matches it and the whole line text contains the folder. -/
def commentTransformLine (pats : List Pat) (lang folder line : String) : String :=
  if lineMatchesAny pats line && strContains line folder then
    commentLine lang line
  else line

/-- The preview list of `comment_imports`: files some of whose lines
match a pattern with a folder-containing specifier. -/
def commentPreview (langPats : String → List Pat) (target_folder : String)
    (files : List (String × String)) : List String :=
  (files.filter (fun fe =>
    match detect_language_for_file fe.1 with
    | none => false
    | some lang =>
      match getHandler lang with
      | none => false
      | some _ => commentPreviewFile (langPats lang) target_folder fe.2)).map Prod.fst

/-- `comment_imports` over an in-memory file set: returns the resulting
file contents and the preview list.  The snapshot call is omitted here
(its effect is the C2/C3/C4 model); a file none of whose lines changed is
not rewritten by the source, which leaves the same bytes as writing the
unchanged lines back. -/
def comment_imports (langPats : String → List Pat) (target_folder : String)
    (files : List (String × String)) (dry_run confirmed : Bool) :
    List (String × String) × List String :=
  let preview := commentPreview langPats target_folder files
  if dry_run then (files, preview)
  else if SAFE_MODE && !confirmed then (files, preview)
  else
    (files.map (fun fe =>
      if preview.contains fe.1 then
        match detect_language_for_file fe.1 with
        | none => fe
        | some lang =>
          (fe.1, joinStrings ((pyReadlines fe.2).map
            (commentTransformLine (langPats lang) lang target_folder)))
      else fe), preview)

/-! ## remove_imports (C7) -/

/-- The preview test of `remove_imports`: some full-text `finditer` match
has a non-empty `group(1)` containing the folder. -/
def removePreviewFile (pats : List Pat) (folder text : String) : Bool :=
  pats.any (fun p => (p.finditer text).any (fun m =>
    match m.g1 with
    | some g => decide (g ≠ "") && strContains g folder
    | none => false))

/-- The per-line rule of the mutation phase: drop a line when some
pattern, searched on it, yields a non-empty `group(1)` containing the folder. -/
def removeLineHit (pats : List Pat) (folder line : String) : Bool :=
  pats.any (fun p =>
    match p.search line with
    | some m =>
      match m.g1 with
      | some g => decide (g ≠ "") && strContains g folder
      | none => false
    | none => false)

/-- The preview list of `remove_imports`. -/
def removePreview (langPats : String → List Pat) (target_folder : String)
    (files : List (String × String)) : List String :=
  (files.filter (fun fe =>
    match detect_language_for_file fe.1 with
    | none => false
    | some lang =>
      match getHandler lang with
      | none => false
      | some _ => removePreviewFile (langPats lang) target_folder fe.2)).map Prod.fst

/-- The files a non-dry-run `remove_imports` actually rewrites: preview
members where at least one line is dropped. -/
def removeModified (langPats : String → List Pat) (target_folder : String)
    (files : List (String × String)) : List String :=
  (files.filter (fun fe =>
    (removePreview langPats target_folder files).contains fe.1 &&
    (match detect_language_for_file fe.1 with
     | none => false
     | some lang =>
       (pyReadlines fe.2).any (removeLineHit (langPats lang) target_folder)))).map
    Prod.fst

/-- `remove_imports` over an in-memory file set: returns the resulting
files, the preview list, and the list of files actually rewritten (those
where at least one line was dropped). -/
def remove_imports (langPats : String → List Pat) (target_folder : String)
    (files : List (String × String)) (dry_run confirmed : Bool) :
    List (String × String) × List String × List String :=
  let preview := removePreview langPats target_folder files
  if dry_run then (files, preview, [])
  else if SAFE_MODE && !confirmed then (files, preview, [])
  else
    (files.map (fun fe =>
      if preview.contains fe.1 then
        match detect_language_for_file fe.1 with
        | none => fe
        | some lang =>
          (fe.1, joinStrings ((pyReadlines fe.2).filter
            (fun line => !(removeLineHit (langPats lang) target_folder line))))
      else fe),
     preview,
     removeModified langPats target_folder files)

/-! ## C7: dry-run frame property of remove-imports -/

/-- One file whose only folder-matching import statement spans two lines:
the full-text `finditer` of the preview matches across the newline, but
the per-line `search` of the mutation phase cannot. -/
def c7files : List (String × String) :=
  [("a.js", "import X\nfrom \"./legacy/util\"\n")]

/-- Counterexample to C7 as stated: remove-imports previews `a.js` (its
specifier of the multi-line import contains `legacy`), but a non-dry-run
invocation rewrites no file at all — the preview set and the acted-on
set differ (and the bytes stay unchanged even in the non-dry run). -/
theorem claim_C7_counterexample :
    (remove_imports jsLangPats "legacy" c7files false true).2.1 = ["a.js"] ∧
    (remove_imports jsLangPats "legacy" c7files false true).2.2 = [] ∧
    (remove_imports jsLangPats "legacy" c7files false true).1 = c7files := by
  refine ⟨by decide, by decide, by decide⟩

/-- Claim C7, amended: a dry run leaves the bytes of every file unchanged and
reports the same preview list a non-dry-run invocation computes; the
files a non-dry-run invocation rewrites are a subset of (not always equal
to) that preview. -/
theorem claim_C7_dryrun_frame (langPats : String → List Pat) (folder : String)
    (files : List (String × String)) (confirmed : Bool) :
    (remove_imports langPats folder files true confirmed).1 = files ∧
    (remove_imports langPats folder files true confirmed).2.1 =
      removePreview langPats folder files ∧
    (remove_imports langPats folder files false true).2.1 =
      removePreview langPats folder files ∧
    (∀ x, x ∈ removeModified langPats folder files →
      x ∈ removePreview langPats folder files) := by
  refine ⟨rfl, rfl, rfl, ?_⟩
  intro x hx
  unfold removeModified at hx
  rw [List.mem_map] at hx
  obtain ⟨fe, hfe, hdef⟩ := hx
  subst hdef
  have hq := List.of_mem_filter hfe
  rw [Bool.and_eq_true] at hq
  exact listContains_iff.1 hq.1

/-- Concrete instance of the amended C7: a single-line matching import is
previewed and rewritten, and the subset conclusion applies to it. -/
theorem claim_C7_witness :
    "b.js" ∈ removeModified jsLangPats "legacy"
      [("b.js", "import A from \"./legacy/x\"\n")] ∧
    "b.js" ∈ removePreview jsLangPats "legacy"
      [("b.js", "import A from \"./legacy/x\"\n")] :=
  ⟨by decide,
   (claim_C7_dryrun_frame jsLangPats "legacy"
     [("b.js", "import A from \"./legacy/x\"\n")] true).2.2.2 "b.js" (by decide)⟩

/-! ## C8: which lines comment-imports rewrites -/

def c8text : String :=
  "import A from \"./legacy/x\"\nimport B from \"./util\" // legacy stuff\n"

def c8out : String :=
  "// import A from \"./legacy/x\" // removido pelo script\n// import B from \"./util\" // legacy stuff // removido pelo script\n"

def c8files : List (String × String) := [("b.js", c8text)]

/-- Counterexample to C8 as stated: the extracted specifier of line two
is `./util`, which does not contain `legacy`; the claim says such a line
is left unchanged, yet the confirmed non-dry-run rewrites it, because the
mutation phase tests the whole line text (here a trailing comment)
rather than the specifier. -/
theorem claim_C8_counterexample :
    ((patOf jsP1).search "import B from \"./util\" // legacy stuff\n").map
      MatchRes.g1 = some (some "./util") ∧
    strContains (replaceBackslash "./util") "legacy" = false ∧
    (comment_imports jsLangPats "legacy" c8files false true).1 =
      [("b.js", c8out)] ∧
    pyReadlines c8text =
      ["import A from \"./legacy/x\"\n",
       "import B from \"./util\" // legacy stuff\n"] ∧
    pyReadlines c8out =
      ["// import A from \"./legacy/x\" // removido pelo script\n",
       "// import B from \"./util\" // legacy stuff // removido pelo script\n"] := by
  refine ⟨by decide, by decide, by decide, by decide, by decide⟩

theorem key_unique {α : Type} :
    ∀ {l : List (String × α)}, (l.map Prod.fst).Nodup →
      ∀ {a b : String × α}, a ∈ l → b ∈ l → a.1 = b.1 → a = b := by
  intro l
  induction l with
  | nil => intro _ a b ha; cases ha
  | cons e rest ih =>
    intro hnd a b ha hb hk
    rw [List.map_cons, List.nodup_cons] at hnd
    rcases List.mem_cons.1 ha with ha | ha <;> rcases List.mem_cons.1 hb with hb | hb
    · rw [ha, hb]
    · exfalso
      apply hnd.1
      rw [ha] at hk
      rw [hk]
      exact List.mem_map.2 ⟨b, hb, rfl⟩
    · exfalso
      apply hnd.1
      rw [hb] at hk
      rw [← hk]
      exact List.mem_map.2 ⟨a, ha, rfl⟩
    · exact ih hnd.2 ha hb hk

theorem contains_map_fst_filter {α : Type} {q : String × α → Bool}
    {l : List (String × α)} (hnd : (l.map Prod.fst).Nodup)
    {fe : String × α} (hfe : fe ∈ l) :
    ((l.filter q).map Prod.fst).contains fe.1 = q fe := by
  cases hq : q fe with
  | true =>
    apply listContains_iff.2
    exact List.mem_map.2 ⟨fe, List.mem_filter.2 ⟨hfe, hq⟩, rfl⟩
  | false =>
    cases hcon : ((l.filter q).map Prod.fst).contains fe.1 with
    | false => rfl
    | true =>
      exfalso
      obtain ⟨fe', hfe', hk⟩ := List.mem_map.1 (listContains_iff.1 hcon)
      obtain ⟨hfe'l, hq'⟩ := List.mem_filter.1 hfe'
      have := key_unique hnd hfe'l hfe hk
      rw [this] at hq'
      rw [hq'] at hq
      cases hq

/-- Claim C8, amended: in a confirmed non-dry-run comment-imports run, a
file is rewritten exactly when its preview test fires (the extracted
specifier of some line contains the folder); within such a file, exactly the
lines that match an import pattern and whose whole line text contains
the folder are rewritten (comment marker prefixed, marker comment
appended); every other line and file is unchanged.  Hypothesis: file
paths are distinct (true of a scanned tree). -/
theorem claim_C8_commented_lines (langPats : String → List Pat) (folder : String)
    (files : List (String × String)) (hnd : (files.map Prod.fst).Nodup) :
    (comment_imports langPats folder files false true).1 =
      files.map (fun fe =>
        match detect_language_for_file fe.1 with
        | none => fe
        | some lang =>
          match getHandler lang with
          | none => fe
          | some _ =>
            if commentPreviewFile (langPats lang) folder fe.2 then
              (fe.1, joinStrings ((pyReadlines fe.2).map
                (commentTransformLine (langPats lang) lang folder)))
            else fe) := by
  have hred : (comment_imports langPats folder files false true).1 =
      files.map (fun fe =>
        if (commentPreview langPats folder files).contains fe.1 then
          match detect_language_for_file fe.1 with
          | none => fe
          | some lang =>
            (fe.1, joinStrings ((pyReadlines fe.2).map
              (commentTransformLine (langPats lang) lang folder)))
        else fe) := rfl
  rw [hred]
  apply List.map_congr_left
  intro fe hfe
  have hcon : (commentPreview langPats folder files).contains fe.1 =
      (fun fe : String × String =>
        match detect_language_for_file fe.1 with
        | none => false
        | some lang =>
          match getHandler lang with
          | none => false
          | some _ => commentPreviewFile (langPats lang) folder fe.2) fe :=
    contains_map_fst_filter hnd hfe
  cases hdet : detect_language_for_file fe.1 with
  | none =>
    simp only [hdet] at hcon
    simp only [hcon, hdet]
    rw [if_neg (by simp)]
  | some lang =>
    cases hh : getHandler lang with
    | none =>
      simp only [hdet, hh] at hcon
      simp only [hcon, hdet, hh]
      rw [if_neg (by simp)]
    | some hnd2 =>
      simp only [hdet, hh] at hcon
      simp only [hdet, hh]
      by_cases hprev : commentPreviewFile (langPats lang) folder fe.2 = true
      · rw [hprev] at hcon
        rw [hcon]
        rw [if_pos rfl, if_pos hprev]
      · rw [Bool.not_eq_true] at hprev
        rw [hprev] at hcon
        rw [hcon]
        rw [if_neg (by simp), if_neg (by simp [hprev])]

/-- Concrete instance of the amended C8 on the two-line file. -/
theorem claim_C8_witness :
    (c8files.map Prod.fst).Nodup ∧
    (comment_imports jsLangPats "legacy" c8files false true).1 =
      c8files.map (fun fe =>
        match detect_language_for_file fe.1 with
        | none => fe
        | some lang =>
          match getHandler lang with
          | none => fe
          | some _ =>
            if commentPreviewFile (jsLangPats lang) "legacy" fe.2 then
              (fe.1, joinStrings ((pyReadlines fe.2).map
                (commentTransformLine (jsLangPats lang) lang "legacy")))
            else fe) :=
  ⟨by decide, claim_C8_commented_lines jsLangPats "legacy" c8files (by decide)⟩

end CleanerMulti
